import Mathlib

set_option linter.unusedSectionVars false

/-!
Shallow embedding of the storage-engine components of the cmu-15-445 repository
(buffer pool manager, LRU replacer, extendible hash table, lock manager,
log manager, log recovery, B+tree coalescing) together with theorems settling
the specification claims about them.

Each definition is translated from the corresponding C++ source file; the
file and function are named in the doc comment of every definition.
-/

namespace CmuDb

/-! ## Extendible hash table — src/hash/extendible_hash.cpp

The C++ class stores a directory of `shared_ptr<Bucket>`; slot aliasing is
semantically relevant (the split loop rebinds every directory slot whose
pointer equals the target).  We model the pointers by a heap: `buckets` is the
list of all bucket cells ever allocated and the directory stores heap indices;
pointer equality becomes index equality.  `std::hash` is a parameter `h`.
A bucket's `contents` is a `std::map<K,V>`, modelled by an association list
with distinct keys (`operator[]` overwrites in place, `erase` removes the key).
-/

namespace ExtHash

structure Bucket (K V : Type) where
  localDepth : Nat
  contents : List (K × V)
deriving Repr, DecidableEq

structure HState (K V : Type) where
  globalDepth : Nat
  bucketSizeLimit : Nat
  buckets : List (Bucket K V)
  bucketDirectory : List Nat
deriving Repr, DecidableEq

variable {K V : Type} [DecidableEq K]

/-- Read of `std::map` (`contents.find(key)` / `contents[key]` after a find). -/
def lookupA (l : List (K × V)) (k : K) : Option V :=
  match l with
  | [] => none
  | (k', v) :: rest => if k' = k then some v else lookupA rest k

/-- Write of `std::map::operator[]`: overwrite the key if present, else add it. -/
def setA (l : List (K × V)) (k : K) (v : V) : List (K × V) :=
  match l with
  | [] => [(k, v)]
  | (k', v') :: rest => if k' = k then (k, v) :: rest else (k', v') :: setA rest k v

/-- Erase of `std::map::erase(key)` (keys of a map are distinct). -/
def eraseA (l : List (K × V)) (k : K) : List (K × V) :=
  l.filter (fun p => p.1 ≠ k)

/-- `ExtendibleHash::getBucketIndex`: `hashKey & ((1 << globalDepth) - 1)`,
i.e. the hash modulo `2 ^ globalDepth`. -/
def getBucketIndex (s : HState K V) (hashKey : Nat) : Nat :=
  hashKey % 2 ^ s.globalDepth

/-- Heap read of a bucket cell (dereferencing a `shared_ptr<Bucket>`). -/
def bucketAt (s : HState K V) (i : Nat) : Option (Bucket K V) :=
  s.buckets[i]?

/-- `ExtendibleHash::getBucket`: the directory slot addressed by the key,
as a heap index.  `none` models an out-of-range directory access. -/
def getBucket (h : K → Nat) (s : HState K V) (k : K) : Option Nat :=
  s.bucketDirectory[getBucketIndex s (h k)]?

/-- `ExtendibleHash::Find`: `some (found, value)`, where `found` is the C++
return value; `none` models a malformed directory (out-of-range access). -/
def find (h : K → Nat) (s : HState K V) (k : K) : Option (Bool × Option V) :=
  match getBucket h s k with
  | none => none
  | some bi =>
    match bucketAt s bi with
    | none => none
    | some b =>
      match lookupA b.contents k with
      | some v => some (true, some v)
      | none => some (false, none)

/-- `ExtendibleHash::Remove`: erase the key from the addressed bucket;
returns the C++ boolean and the new state. -/
def remove (h : K → Nat) (s : HState K V) (k : K) :
    Option (Bool × HState K V) :=
  match getBucket h s k with
  | none => none
  | some bi =>
    match bucketAt s bi with
    | none => none
    | some b =>
      match lookupA b.contents k with
      | none => some (false, s)
      | some _ =>
        some (true,
          { s with buckets := s.buckets.set bi { b with contents := eraseA b.contents k } })

/-- Directory doubling inside `ExtendibleHash::Insert`: append a shallow copy
of the directory to itself and increment `globalDepth`. -/
def doubleDirectory (s : HState K V) : HState K V :=
  { s with bucketDirectory := s.bucketDirectory ++ s.bucketDirectory,
           globalDepth := s.globalDepth + 1 }

/-- Directory slot `i` (heap index stored there). -/
def slotB (s : HState K V) (i : Nat) : Nat :=
  s.bucketDirectory.getD i 0

/-- The new bucket receiving the pairs whose hash has bit `localDepth` clear
(`a` in the C++ split). -/
def aBucket (h : K → Nat) (tb : Bucket K V) : Bucket K V :=
  ⟨tb.localDepth + 1, tb.contents.filter (fun p => ! Nat.testBit (h p.1) tb.localDepth)⟩

/-- The new bucket receiving the pairs whose hash has bit `localDepth` set
(`b` in the C++ split). -/
def bBucket (h : K → Nat) (tb : Bucket K V) : Bucket K V :=
  ⟨tb.localDepth + 1, tb.contents.filter (fun p => Nat.testBit (h p.1) tb.localDepth)⟩

/-- The rebound directory after a split: every slot that pointed at the
target `t` is rebound to the `a` or the `b` bucket according to bit
`localDepth` of the slot index. -/
def splitDir (s1 : HState K V) (t : Nat) (ld : Nat) : List Nat :=
  (List.range s1.bucketDirectory.length).map (fun i =>
    if slotB s1 i = t then
      (if Nat.testBit i ld then s1.buckets.length + 1 else s1.buckets.length)
    else slotB s1 i)

/-- Tail of one split iteration of `ExtendibleHash::Insert`, on the (possibly
already doubled) state `s1`: append the two fresh buckets to the heap and
rebind the directory.  The C++ rebinding loop is sequential, but
already-rebound slots no longer compare equal to the target, so it equals the
pointwise `splitDir` map over slot indices. -/
def splitCore (h : K → Nat) (s1 : HState K V) (t : Nat) (tb : Bucket K V) : HState K V :=
  { s1 with buckets := s1.buckets ++ [aBucket h tb, bBucket h tb],
            bucketDirectory := splitDir s1 t tb.localDepth }

/-- One iteration of the splitting loop in `ExtendibleHash::Insert`:
fetch the target bucket; if its local depth equals the global depth, double
the directory; then split the target via `splitCore`. -/
def splitStep (h : K → Nat) (s : HState K V) (k : K) : Option (HState K V) :=
  match getBucket h s k with
  | none => none
  | some t =>
    match bucketAt s t with
    | none => none
    | some tb =>
      some (splitCore h
        (if tb.localDepth = s.globalDepth then doubleDirectory s else s) t tb)

/-- The `while (target->contents.size() == bucketSizeLimit)` loop of
`ExtendibleHash::Insert`, with fuel; `none` when the fuel runs out (the C++
loop does not terminate when splitting never frees the target) or on a
malformed directory. -/
def insertLoop (h : K → Nat) : Nat → HState K V → K → Option (HState K V)
  | fuel, s, k =>
    match getBucket h s k with
    | none => none
    | some t =>
      match bucketAt s t with
      | none => none
      | some tb =>
        if tb.contents.length = s.bucketSizeLimit then
          match fuel with
          | 0 => none
          | fuel' + 1 =>
            match splitStep h s k with
            | none => none
            | some s' => insertLoop h fuel' s' k
        else some s

/-- `ExtendibleHash::Insert`: run the splitting loop, then write the pair into
the addressed bucket (`bucketDirectory[index]->contents[key] = value`). -/
def insert (h : K → Nat) (fuel : Nat) (s : HState K V) (k : K) (v : V) :
    Option (HState K V) :=
  match insertLoop h fuel s k with
  | none => none
  | some s' =>
    match getBucket h s' k with
    | none => none
    | some t =>
      match bucketAt s' t with
      | none => none
      | some tb =>
        some { s' with
               buckets := s'.buckets.set t { tb with contents := setA tb.contents k v } }

/-- Total number of key-value pairs stored across the (distinct) buckets
referenced by the directory. -/
def totalCount (s : HState K V) : Nat :=
  ∑ j ∈ s.bucketDirectory.toFinset, ((bucketAt s j).map (fun b => b.contents.length)).getD 0

/-- Local depth of the bucket cell at heap index `j`. -/
def localOf (s : HState K V) (j : Nat) : Nat :=
  ((bucketAt s j).map Bucket.localDepth).getD 0

/-- Well-formedness of an extendible hash table state, the documented
invariant of the structure: the directory has `2 ^ globalDepth` slots, every
slot references a live bucket, every referenced bucket has
`localDepth ≤ globalDepth`, and all slots sharing the low `localDepth` bits
of a slot reference that slot's bucket. -/
def WF (s : HState K V) : Prop :=
  s.bucketDirectory.length = 2 ^ s.globalDepth ∧
  (∀ i < s.bucketDirectory.length, slotB s i < s.buckets.length) ∧
  (∀ i < s.bucketDirectory.length, localOf s (slotB s i) ≤ s.globalDepth) ∧
  (∀ i < s.bucketDirectory.length, ∀ j < s.bucketDirectory.length,
    i % 2 ^ localOf s (slotB s i) = j % 2 ^ localOf s (slotB s i) → slotB s j = slotB s i)

instance (s : HState K V) : Decidable (WF s) := by
  unfold WF
  exact inferInstance

end ExtHash

/-! ## Lock manager — src/concurrency/lock_manager.cpp, lock_manager.h

Tuple-level lock manager with wait-die deadlock prevention.  RIDs are
modelled as `Nat`, transaction ids as `Int` (`txn_id_t`).  The blocking
`cond.wait` call is modelled by splitting each lock acquisition into the
step up to the wait (`LockShared` / `LockExclusive`, returning `.wait` when
the request is enqueued and the thread blocks) and the continuation that
runs when the wait predicate `Begin()->tid_ == tid` becomes true
(`LockSharedResume` / `LockExclusiveResume`). -/

namespace LockMgr

inductive LockMode where
  | shared
  | exclusive
deriving Repr, DecidableEq

inductive TransactionState where
  | growing
  | shrinking
  | committed
  | aborted
deriving Repr, DecidableEq

/-- `LockItem` of lock_manager.h. -/
structure LockItem where
  tid : Int
  mode : LockMode
  held : Bool
deriving Repr, DecidableEq

/-- `LockList` of lock_manager.h: the wait queue of one RID plus the cached
oldest holder id. -/
structure LockList where
  list : List LockItem
  oldest : Int
deriving Repr, DecidableEq

/-- `Transaction` (concurrency/transaction.h): the fields the lock manager
touches. -/
structure Transaction where
  txnId : Int
  state : TransactionState
  sharedLockSet : List Nat
  exclusiveLockSet : List Nat
deriving Repr, DecidableEq

/-- The `LockList(id, mode, status)` constructor. -/
def mkLockList (id : Int) (mode : LockMode) (status : Bool) : LockList :=
  ⟨[⟨id, mode, status⟩], id⟩

/-- Insertion scan of `LockList::Add`: skip held items and non-held items
with smaller-or-equal tid; insert before the first non-held item with a
larger tid; push back when no such item exists. -/
def addItem : List LockItem → LockItem → List LockItem
  | [], it => [it]
  | x :: rest, it =>
    if x.held = false ∧ x.tid > it.tid then it :: x :: rest
    else x :: addItem rest it

/-- `LockList::Add` (does not update `oldest_`). -/
def LockList.Add (ll : LockList) (id : Int) (mode : LockMode) (status : Bool) : LockList :=
  { ll with list := addItem ll.list ⟨id, mode, status⟩ }

/-- `LockList::Push_front`, updating `oldest_` when the new id is smaller. -/
def LockList.Push_front (ll : LockList) (id : Int) (mode : LockMode) (status : Bool) :
    LockList :=
  ⟨⟨id, mode, status⟩ :: ll.list, if id < ll.oldest then id else ll.oldest⟩

/-- `LockList::Find`: the first item with the given tid, or the sentinel
`LockItem(-1, SHARED, false)`. -/
def LockList.Find (ll : LockList) (id : Int) : LockItem :=
  match ll.list.find? (fun x => x.tid = id) with
  | some x => x
  | none => ⟨-1, LockMode.shared, false⟩

/-- `LockList::IsFirst`: whether the queue head has the given tid (reading
the head of an empty queue is undefined in C++; modelled as `false`). -/
def LockList.IsFirst (ll : LockList) (id : Int) : Bool :=
  match ll.list with
  | [] => false
  | x :: _ => x.tid = id

/-- Erasure scan of `LockList::Remove`: drop the first item with the tid. -/
def removeFirst : List LockItem → Int → List LockItem
  | [], _ => []
  | x :: rest, id => if x.tid = id then rest else x :: removeFirst rest id

/-- Recomputation loop of `LockList::Remove`: minimum tid over the held
prefix of the queue, starting from the sentinel `10000000`. -/
def recomputeOldest : List LockItem → Int → Int
  | [], acc => acc
  | x :: rest, acc =>
    if x.held = false then acc
    else recomputeOldest rest (if acc > x.tid then x.tid else acc)

/-- `LockList::Remove`: erase the first item with the tid; when it was the
cached oldest, recompute `oldest_` over the held prefix. -/
def LockList.Remove (ll : LockList) (id : Int) : LockList :=
  let l' := removeFirst ll.list id
  if id = ll.oldest then
    ⟨l', if l'.isEmpty then 10000000 else recomputeOldest l' 10000000⟩
  else ⟨l', ll.oldest⟩

/-- Marking scan of `LockList::Hold`: set `held_` on the first not-yet-held
item with the tid. -/
def holdFirst : List LockItem → Int → List LockItem
  | [], _ => []
  | x :: rest, id =>
    if x.tid = id ∧ x.held = false then { x with held := true } :: rest
    else x :: holdFirst rest id

/-- `LockList::Hold`. -/
def LockList.Hold (ll : LockList) (id : Int) : LockList :=
  { ll with list := holdFirst ll.list id }

/-- `LockList::CanAddShardLock`: empty queue, or head mode is `SHARED`. -/
def LockList.CanAddShardLock (ll : LockList) : Bool :=
  match ll.list with
  | [] => true
  | x :: _ => x.mode = LockMode.shared

/-- `LockList::GetOldest`. -/
def LockList.GetOldest (ll : LockList) : Int :=
  ll.oldest

/-- The `lock_table_` field (an `unordered_map<RID, shared_ptr<LockList>>`),
modelled as an association list. -/
structure LockManager where
  strict2PL : Bool
  lockTable : List (Nat × LockList)
deriving Repr, DecidableEq

def lookupT (tbl : List (Nat × LockList)) (rid : Nat) : Option LockList :=
  match tbl with
  | [] => none
  | (r, ll) :: rest => if r = rid then some ll else lookupT rest rid

def updateT (tbl : List (Nat × LockList)) (rid : Nat) (ll : LockList) :
    List (Nat × LockList) :=
  match tbl with
  | [] => []
  | (r, l) :: rest => if r = rid then (r, ll) :: rest else (r, l) :: updateT rest rid ll

def insertT (tbl : List (Nat × LockList)) (rid : Nat) (ll : LockList) :
    List (Nat × LockList) :=
  (rid, ll) :: tbl

/-- `LockManager::IsValidToLock`: the C++ returns a bool and may set
ABORTED; both effects are returned. -/
def IsValidToLock (txn : Transaction) : Bool × Transaction :=
  match txn.state with
  | TransactionState.aborted => (false, txn)
  | TransactionState.committed => (false, txn)
  | TransactionState.shrinking => (false, { txn with state := TransactionState.aborted })
  | TransactionState.growing => (true, txn)

/-- Result of a lock acquisition step: `.ret b` when the C++ call returns
`b` without blocking; `.wait` when the request was enqueued and the thread
blocked on the condition variable. -/
inductive LockResult where
  | ret (ok : Bool)
  | wait
deriving Repr, DecidableEq

/-- `LockManager::LockShared` up to the `cond.wait` call. -/
def LockShared (lm : LockManager) (txn : Transaction) (rid : Nat) :
    LockResult × LockManager × Transaction :=
  match IsValidToLock txn with
  | (false, txn1) => (LockResult.ret false, lm, txn1)
  | (true, txn1) =>
    match lookupT lm.lockTable rid with
    | none =>
      (LockResult.ret true,
       { lm with lockTable :=
           insertT lm.lockTable rid (mkLockList txn1.txnId LockMode.shared true) },
       { txn1 with sharedLockSet := rid :: txn1.sharedLockSet })
    | some locklist =>
      if locklist.CanAddShardLock then
        (LockResult.ret true,
         { lm with lockTable :=
             updateT lm.lockTable rid (locklist.Push_front txn1.txnId LockMode.shared true) },
         { txn1 with sharedLockSet := rid :: txn1.sharedLockSet })
      else
        if txn1.txnId > locklist.GetOldest then
          (LockResult.ret false, lm, { txn1 with state := TransactionState.aborted })
        else
          (LockResult.wait,
           { lm with lockTable :=
               updateT lm.lockTable rid (locklist.Add txn1.txnId LockMode.shared false) },
           txn1)

/-- Continuation of `LockManager::LockShared` after the `cond.wait` call:
runs only when the wait predicate (this request is at the queue head) holds;
marks the request held and returns true. -/
def LockSharedResume (lm : LockManager) (txn : Transaction) (rid : Nat) :
    Option (Bool × LockManager × Transaction) :=
  match lookupT lm.lockTable rid with
  | none => none
  | some locklist =>
    if locklist.IsFirst txn.txnId then
      some (true,
        { lm with lockTable := updateT lm.lockTable rid (locklist.Hold txn.txnId) },
        { txn with sharedLockSet := rid :: txn.sharedLockSet })
    else none

/-- `LockManager::LockExclusive` up to the `cond.wait` call. -/
def LockExclusive (lm : LockManager) (txn : Transaction) (rid : Nat) :
    LockResult × LockManager × Transaction :=
  match IsValidToLock txn with
  | (false, txn1) => (LockResult.ret false, lm, txn1)
  | (true, txn1) =>
    match lookupT lm.lockTable rid with
    | none =>
      (LockResult.ret true,
       { lm with lockTable :=
           insertT lm.lockTable rid (mkLockList txn1.txnId LockMode.exclusive true) },
       { txn1 with exclusiveLockSet := rid :: txn1.exclusiveLockSet })
    | some lockList =>
      if txn1.txnId > lockList.GetOldest then
        (LockResult.ret false, lm, { txn1 with state := TransactionState.aborted })
      else
        (LockResult.wait,
         { lm with lockTable :=
             updateT lm.lockTable rid (lockList.Add txn1.txnId LockMode.exclusive false) },
         txn1)

/-- Continuation of `LockManager::LockExclusive` after the `cond.wait`. -/
def LockExclusiveResume (lm : LockManager) (txn : Transaction) (rid : Nat) :
    Option (Bool × LockManager × Transaction) :=
  match lookupT lm.lockTable rid with
  | none => none
  | some lockList =>
    if lockList.IsFirst txn.txnId then
      some (true,
        { lm with lockTable := updateT lm.lockTable rid (lockList.Hold txn.txnId) },
        { txn with exclusiveLockSet := rid :: txn.exclusiveLockSet })
    else none

/-- `LockManager::Unlock`.  Under strict 2PL the function returns `false`
on every path, mutating only the transaction state (set to ABORTED when the
state is GROWING or SHRINKING).  Under non-strict 2PL the first unlock turns
GROWING into SHRINKING, the entry is removed and `true` is returned.
`none` models the undefined `lock_table_.find(rid)->second` dereference when
the rid has no entry (non-strict path only).  Note the C++ `item` is a copy,
so `item.held_ = false` does not modify the queue; the model mirrors that by
not touching the list before `Remove`. -/
def Unlock (lm : LockManager) (txn : Transaction) (rid : Nat) :
    Option (Bool × LockManager × Transaction) :=
  if lm.strict2PL then
    if txn.state ≠ TransactionState.aborted ∧ txn.state ≠ TransactionState.committed then
      some (false, lm, { txn with state := TransactionState.aborted })
    else
      some (false, lm, txn)
  else
    let txn1 := if txn.state = TransactionState.growing then
        { txn with state := TransactionState.shrinking } else txn
    match lookupT lm.lockTable rid with
    | none => none
    | some lockList =>
      let item := lockList.Find txn1.txnId
      let txn2 := if item.mode = LockMode.shared then
          { txn1 with sharedLockSet := txn1.sharedLockSet.filter (fun r => r ≠ rid) }
        else
          { txn1 with exclusiveLockSet := txn1.exclusiveLockSet.filter (fun r => r ≠ rid) }
      some (true,
        { lm with lockTable := updateT lm.lockTable rid (lockList.Remove txn1.txnId) },
        txn2)

end LockMgr

/-! ## Buffer pool manager — src/buffer/buffer_pool_manager.cpp, with the
LRU replacer of src/buffer/lru_replacer.cpp

Frames are indices into the `pages` array; the page table is an association
list from page id (`Int`, `INVALID_PAGE_ID = -1`) to frame index; the
replacer is the LRU list of lru_replacer.cpp (front = most recently
inserted, victim popped from the back).  The disk manager is modelled by the
`nextAlloc` allocation counter (`AllocatePage` is monotonically increasing)
and a trace of disk events; `ReadPage` is defined only for already allocated
page ids.  C++ `assert` failures are fatal, modelled as `none`.  The
`pin_page` helper of the header (not part of the sources) increments
`pin_count_`, as the asserts in the .cpp require. -/

namespace BufPool

inductive DiskEvent where
  | readPage (pid : Int)
  | writePage (pid : Int)
  | forceFlush
  | allocate (pid : Int)
  | deallocate (pid : Int)
deriving Repr, DecidableEq

/-- The metadata of a page frame (page.h): `page_id_`, `pin_count_`,
`is_dirty_` and the LSN stored in the data area. -/
structure Page where
  pageId : Int
  pinCount : Nat
  isDirty : Bool
  lsn : Int
deriving Repr, DecidableEq

/-- The log-manager fields the buffer pool observes. -/
structure LogState where
  nextLsn : Int
  persistentLsn : Int
deriving Repr, DecidableEq

structure BPState where
  pages : List Page
  pageTable : List (Int × Nat)
  replacer : List Nat
  freeList : List Nat
  nextAlloc : Int
  logState : LogState
  enableLogging : Bool
deriving Repr, DecidableEq

/-- `LRUReplacer::Insert`: unlink the value if tracked, then push front. -/
def lruInsert (l : List Nat) (v : Nat) : List Nat :=
  v :: l.filter (fun x => x ≠ v)

/-- `LRUReplacer::Victim`: pop the least recently used element (the back). -/
def lruVictim (l : List Nat) : Option (Nat × List Nat) :=
  match l.reverse with
  | [] => none
  | x :: rest => some (x, rest.reverse)

/-- `LRUReplacer::Erase`: unlink if tracked; `true` iff it was tracked. -/
def lruErase (l : List Nat) (v : Nat) : Bool × List Nat :=
  if v ∈ l then (true, l.filter (fun x => x ≠ v)) else (false, l)

/-- The frame array read (`pages_[f]`). -/
def frameAt (s : BPState) (f : Nat) : Page :=
  s.pages.getD f ⟨-1, 0, false, 0⟩

/-- `page_table_->find(pid)`. -/
def lookupP (tbl : List (Int × Nat)) (pid : Int) : Option Nat :=
  (tbl.find? (fun pr => pr.1 = pid)).map Prod.snd

/-- `page_table_->erase(pid)` (keys are distinct in an `unordered_map`). -/
def eraseP (tbl : List (Int × Nat)) (pid : Int) : List (Int × Nat) :=
  tbl.filter (fun pr => pr.1 ≠ pid)

/-- `page_table_->insert({pid, frame})`: a no-op when the key exists. -/
def insertP (tbl : List (Int × Nat)) (pid : Int) (f : Nat) : List (Int × Nat) :=
  if (lookupP tbl pid).isSome then tbl else (pid, f) :: tbl

/-- Effect of `LogManager::ForceFlush` on the observed log state: the
flusher captures `flush_lsn = next_lsn_ - 1`, writes the buffer and sets
`persistent_lsn_` to it (log_manager.cpp). -/
def forceFlushL (ls : LogState) : LogState :=
  { ls with persistentLsn := ls.nextLsn - 1 }

/-- Common tail of `FetchPage` once a frame was obtained: read the page from
disk (defined only for allocated ids), install the table entry and the
metadata, pin.  The asserts `pin_count_ == 1` and `!is_dirty_` hold by
construction on both paths. -/
def finishFetch (s : BPState) (f : Nat) (pid : Int) (tr : List DiskEvent) :
    Option (Option Nat × BPState × List DiskEvent) :=
  if 0 ≤ pid ∧ pid < s.nextAlloc then
    some (some f,
      { s with pageTable := insertP s.pageTable pid f,
               pages := s.pages.set f
                 { frameAt s f with pageId := pid, pinCount := (frameAt s f).pinCount + 1 } },
      tr ++ [DiskEvent.readPage pid])
  else none

/-- `BufferPoolManager::FetchPage`.  In the dirty-victim branch the source's
WAL check `if (ENABLE_LOGGING && lsn > persistent_lsn)` has an empty body
(only a comment), so no force-flush happens before the disk write; the model
mirrors that by emitting `writePage` without a preceding `forceFlush`. -/
def FetchPage (s : BPState) (pid : Int) :
    Option (Option Nat × BPState × List DiskEvent) :=
  if pid = -1 then some (none, s, [])
  else
    match lookupP s.pageTable pid with
    | some f =>
      some (some f,
        { s with replacer := (lruErase s.replacer f).2,
                 pages := s.pages.set f
                   { frameAt s f with pinCount := (frameAt s f).pinCount + 1 } },
        [])
    | none =>
      match s.freeList with
      | f :: rest =>
        if (frameAt s f).pinCount = 0 ∧ (frameAt s f).pageId = -1 ∧
            (frameAt s f).isDirty = false then
          finishFetch { s with freeList := rest } f pid []
        else none
      | [] =>
        match lruVictim s.replacer with
        | none => some (none, s, [])
        | some (f, rep) =>
          if (frameAt s f).pinCount = 0 then
            if (frameAt s f).isDirty then
              finishFetch ({ s with
                  replacer := rep,
                  pages := s.pages.set f { frameAt s f with isDirty := false },
                  pageTable := eraseP s.pageTable ((frameAt s f).pageId) })
                f pid [DiskEvent.writePage ((frameAt s f).pageId)]
            else
              finishFetch ({ s with
                  replacer := rep,
                  pageTable := eraseP s.pageTable ((frameAt s f).pageId) })
                f pid []
          else none

/-- `BufferPoolManager::UnpinPage`. -/
def UnpinPage (s : BPState) (pid : Int) (isDirty : Bool) : Option (Bool × BPState) :=
  match lookupP s.pageTable pid with
  | none => some (false, s)
  | some f =>
    if (frameAt s f).pinCount = 0 then none
    else
      let newPin := (frameAt s f).pinCount - 1
      let p1 : Page := { frameAt s f with pinCount := newPin }
      let p2 : Page := if isDirty then { p1 with isDirty := true } else p1
      some (true,
        { s with pages := s.pages.set f p2,
                 replacer := if newPin = 0 then lruInsert s.replacer f else s.replacer })

/-- `BufferPoolManager::FlushPage`. -/
def FlushPage (s : BPState) (pid : Int) :
    Option (Bool × BPState × List DiskEvent) :=
  match lookupP s.pageTable pid with
  | none => some (false, s, [])
  | some f =>
    some (true,
      { s with pages := s.pages.set f { frameAt s f with isDirty := false } },
      [DiskEvent.writePage pid])

/-- `BufferPoolManager::DeletePage`. -/
def DeletePage (s : BPState) (pid : Int) :
    Option (Bool × BPState × List DiskEvent) :=
  match lookupP s.pageTable pid with
  | none => some (true, s, [DiskEvent.deallocate pid])
  | some f =>
    if (frameAt s f).pinCount ≠ 0 then some (false, s, [])
    else
      match lruErase s.replacer f with
      | (false, _) => none
      | (true, rep) =>
        some (true,
          { s with replacer := rep,
                   freeList := s.freeList ++ [f],
                   pageTable := eraseP s.pageTable pid,
                   pages := s.pages.set f ⟨-1, 0, false, 0⟩ },
          [DiskEvent.deallocate pid])

/-- Common tail of `NewPage` once a frame was obtained: allocate a fresh
page id, install the table entry, zero the frame (`ResetMemory`), mark
dirty and pin. -/
def finishNew (s : BPState) (f : Nat) (tr : List DiskEvent) :
    Option (Option (Int × Nat) × BPState × List DiskEvent) :=
  some (some (s.nextAlloc, f),
    { s with nextAlloc := s.nextAlloc + 1,
             pageTable := insertP s.pageTable s.nextAlloc f,
             pages := s.pages.set f ⟨s.nextAlloc, (frameAt s f).pinCount + 1, true, 0⟩ },
    tr ++ [DiskEvent.allocate s.nextAlloc])

/-- `BufferPoolManager::NewPage`.  In the dirty-victim branch the WAL check
calls `log_manager_->ForceFlush()` before the disk write. -/
def NewPage (s : BPState) :
    Option (Option (Int × Nat) × BPState × List DiskEvent) :=
  match s.freeList with
  | f :: rest =>
    if (frameAt s f).pinCount = 0 ∧ (frameAt s f).pageId = -1 ∧
        (frameAt s f).isDirty = false then
      finishNew { s with freeList := rest } f []
    else none
  | [] =>
    match lruVictim s.replacer with
    | none => some (none, s, [])
    | some (f, rep) =>
      if (frameAt s f).pinCount = 0 then
        if (frameAt s f).isDirty then
          if s.enableLogging ∧ (frameAt s f).lsn > s.logState.persistentLsn then
            finishNew ({ s with
                replacer := rep,
                logState := forceFlushL s.logState,
                pages := s.pages.set f { frameAt s f with isDirty := false },
                pageTable := eraseP s.pageTable ((frameAt s f).pageId) })
              f [DiskEvent.forceFlush, DiskEvent.writePage ((frameAt s f).pageId)]
          else
            finishNew ({ s with
                replacer := rep,
                pages := s.pages.set f { frameAt s f with isDirty := false },
                pageTable := eraseP s.pageTable ((frameAt s f).pageId) })
              f [DiskEvent.writePage ((frameAt s f).pageId)]
        else
          finishNew ({ s with
              replacer := rep,
              pageTable := eraseP s.pageTable ((frameAt s f).pageId) }) f []
      else none

/-- The `BufferPoolManager` constructor: all frames on the free list,
metadata zeroed; `AllocatePage` starts at 1 (page 0 is the header page). -/
def initState (n : Nat) (enableLogging : Bool) (ls : LogState) : BPState :=
  { pages := List.replicate n ⟨-1, 0, false, 0⟩,
    pageTable := [],
    replacer := [],
    freeList := List.range n,
    nextAlloc := 1,
    logState := ls,
    enableLogging := enableLogging }

/-- One buffer pool operation, for stating the preservation claim. -/
inductive BPOp where
  | fetch (pid : Int)
  | unpin (pid : Int) (d : Bool)
  | flush (pid : Int)
  | newp
  | deleteP (pid : Int)
deriving Repr, DecidableEq

def stepOp (s : BPState) (op : BPOp) : Option BPState :=
  match op with
  | BPOp.fetch pid => (FetchPage s pid).map (fun r => r.2.1)
  | BPOp.unpin pid d => (UnpinPage s pid d).map (fun r => r.2)
  | BPOp.flush pid => (FlushPage s pid).map (fun r => r.2.1)
  | BPOp.newp => (NewPage s).map (fun r => r.2.1)
  | BPOp.deleteP pid => (DeletePage s pid).map (fun r => r.2.1)

def runOps : BPState → List BPOp → Option BPState
  | s, [] => some s
  | s, op :: rest =>
    match stepOp s op with
    | none => none
    | some s' => runOps s' rest

/-- The values (frames) of the page table. -/
def tableFrames (s : BPState) : List Nat :=
  s.pageTable.map Prod.snd

/-- Strengthened buffer pool invariant, closed under all five operations. -/
def fullInv (s : BPState) : Prop :=
  (s.pageTable.map Prod.fst).Nodup ∧
  (s.pageTable.map Prod.snd).Nodup ∧
  (∀ pr ∈ s.pageTable, pr.2 < s.pages.length ∧ (frameAt s pr.2).pageId = pr.1 ∧
    0 ≤ pr.1 ∧ pr.1 < s.nextAlloc) ∧
  s.freeList.Nodup ∧
  (∀ f ∈ s.freeList, f < s.pages.length ∧ (frameAt s f).pageId = -1 ∧
    (frameAt s f).pinCount = 0 ∧ (frameAt s f).isDirty = false) ∧
  s.replacer.Nodup ∧
  (∀ f ∈ s.replacer, f ∈ tableFrames s) ∧
  (∀ f ∈ s.freeList, f ∉ tableFrames s) ∧
  (∀ pr ∈ s.pageTable, ((frameAt s pr.2).pinCount = 0 ↔ pr.2 ∈ s.replacer)) ∧
  (∀ f < s.pages.length, f ∈ s.freeList ∨ f ∈ tableFrames s) ∧
  0 ≤ s.nextAlloc

instance (s : BPState) : Decidable (fullInv s) := by
  unfold fullInv
  exact inferInstance

/-- State of one frame as the specification's invariant describes it: free,
pinned in the table, or unpinned in the table and tracked by the replacer —
exactly one of the three — and never simultaneously free and mapped, or
pinned and in the replacer. -/
def claimedInvAt (s : BPState) (f : Nat) : Prop :=
  ((f ∈ s.freeList ∧ f ∉ tableFrames s ∧ (frameAt s f).pageId = -1 ∧
      (frameAt s f).pinCount = 0 ∧ (frameAt s f).isDirty = false ∧ f ∉ s.replacer) ∨
   (f ∈ tableFrames s ∧ f ∉ s.freeList ∧ (frameAt s f).pinCount > 0 ∧ f ∉ s.replacer) ∨
   (f ∈ tableFrames s ∧ f ∉ s.freeList ∧ (frameAt s f).pinCount = 0 ∧ f ∈ s.replacer)) ∧
  ¬(f ∈ s.freeList ∧ f ∈ tableFrames s) ∧
  ¬((frameAt s f).pinCount > 0 ∧ f ∈ s.replacer)

instance (s : BPState) (f : Nat) : Decidable (claimedInvAt s f) := by
  unfold claimedInvAt
  exact inferInstance

/-- The invariant exactly as the specification states it, over all frames of
the pool. -/
def claimedInv (s : BPState) : Prop :=
  ∀ f < s.pages.length, claimedInvAt s f

instance (s : BPState) : Decidable (claimedInv s) := by
  unfold claimedInv
  exact inferInstance

/-- Intermediate invariant inside `FetchPage`/`NewPage`, after a victim
frame `f` has been taken off the free list or the replacer and its old page
table entry removed: the rest of the pool satisfies the full invariant with
`f` temporarily outside every structure and unpinned. -/
def orphanInv (s : BPState) (f : Nat) : Prop :=
  (s.pageTable.map Prod.fst).Nodup ∧
  (s.pageTable.map Prod.snd).Nodup ∧
  (∀ pr ∈ s.pageTable, pr.2 < s.pages.length ∧ (frameAt s pr.2).pageId = pr.1 ∧
    0 ≤ pr.1 ∧ pr.1 < s.nextAlloc) ∧
  s.freeList.Nodup ∧
  (∀ g ∈ s.freeList, g < s.pages.length ∧ (frameAt s g).pageId = -1 ∧
    (frameAt s g).pinCount = 0 ∧ (frameAt s g).isDirty = false) ∧
  s.replacer.Nodup ∧
  (∀ g ∈ s.replacer, g ∈ tableFrames s) ∧
  (∀ g ∈ s.freeList, g ∉ tableFrames s) ∧
  (∀ pr ∈ s.pageTable, ((frameAt s pr.2).pinCount = 0 ↔ pr.2 ∈ s.replacer)) ∧
  (∀ g < s.pages.length, g = f ∨ g ∈ s.freeList ∨ g ∈ tableFrames s) ∧
  0 ≤ s.nextAlloc ∧
  f < s.pages.length ∧
  f ∉ tableFrames s ∧
  f ∉ s.freeList ∧
  f ∉ s.replacer ∧
  (frameAt s f).pinCount = 0

end BufPool

/-! ### Log manager (log_manager.cpp) -/

namespace LogMgr

/-- The log-manager fields involved in `AppendLogRecord`:
`offset_` (bytes used in the current log buffer) and `next_lsn_`, plus the
`allow_to_flush_` flag shared with the flush thread. -/
structure LMState where
  offset : Nat
  nextLsn : Int
  allowFlush : Bool
deriving Repr, DecidableEq

/-- The flusher's critical section once it wakes (log_manager.cpp:33-40):
swap the two buffers and clear `allow_to_flush_`.  `SwapBuffer`'s body lives
in a header that is not part of the sources; Modelled from the spec: the
flusher "atomically swap[s] log ↔ flush buffer, reset[s] `offset_=0`, ...
clear[s] `allow_to_flush_`". -/
def flusherIter (s : LMState) : LMState :=
  { s with offset := 0, allowFlush := false }

/-- `LogManager::AppendLogRecord` (log_manager.cpp:92-134) with
`cap = LOG_BUFFER_SIZE` and `recSize = log_record.GetSize()`.  When the
record does not fit, the code raises `allow_to_flush_`, calls
`cv_.notify_all()`, releases and reacquires `latch_` — but never waits for
the flusher, so whether the flusher's swap happens in the window is a pure
race; the parameter `flusherRan` selects the schedule.  Returns the
assigned LSN, the new state and the half-open byte interval
`[offset, offset + recSize)` written into the log buffer by the memcpys. -/
def AppendLogRecord (cap : Nat) (s : LMState) (recSize : Nat)
    (flusherRan : Bool) : Int × LMState × (Nat × Nat) :=
  let s1 := if (recSize : Int) > (cap : Int) - (s.offset : Int) then
              (if flusherRan then flusherIter { s with allowFlush := true }
               else { s with allowFlush := true })
            else s
  (s1.nextLsn,
   { s1 with nextLsn := s1.nextLsn + 1, offset := s1.offset + recSize },
   (s1.offset, s1.offset + recSize))

end LogMgr

/-! ### Log recovery, Redo pass (log_recovery.cpp) -/

namespace Recovery

inductive LogRecordType where
  | invalid
  | insert
  | markdelete
  | applydelete
  | rollbackdelete
  | update
  | newpage
  | begin
  | commit
  | abort
deriving Repr, DecidableEq

/-- The header fields of a deserialized log record plus the page it targets:
`insert_rid_`/`delete_rid_`/`update_rid_`'s page id for the tuple records,
`prev_page_id_` for NEWPAGE. -/
structure LogRecord where
  size : Nat
  lsn : Int
  txnId : Int
  prevLsn : Int
  recType : LogRecordType
  pageId : Int
deriving Repr, DecidableEq

/-- A table page as Redo observes it: its LSN and an abstract count of the
mutations applied to it.  The `TablePage` mutators (`InsertTuple`,
`UpdateTuple`, `ApplyDelete`, `MarkDelete`, `RollbackDelete`, `Init`) live
in table_page.cpp, which is not among the sources; Modelled from the spec:
each is "the inverse-friendly operation" applied to the page, abstracted
here to bumping the page's modification counter. -/
structure RPage where
  lsn : Int
  mods : Nat
deriving Repr, DecidableEq

inductive RecEvent where
  | fetch (pid : Int)
  | unpin (pid : Int) (dirty : Bool)
deriving Repr, DecidableEq

/-- Recovery state: the pool's pages keyed by page id, `active_txn_`,
`lsn_mapping_`, and the trace of buffer-pool calls made by Redo. -/
structure RState where
  pages : List (Int × RPage)
  activeTxn : List (Int × Int)
  lsnMapping : List (Int × Int)
  trace : List RecEvent
deriving Repr, DecidableEq

def lookupPg (l : List (Int × RPage)) (k : Int) : Option RPage :=
  (l.find? (fun pr => pr.1 = k)).map Prod.snd

/-- `m[k] = v` on an `unordered_map`: overwrite if present, append if not. -/
def upsert {α : Type} (l : List (Int × α)) (k : Int) (v : α) : List (Int × α) :=
  if (l.find? (fun pr => pr.1 = k)).isSome then
    l.map (fun pr => if pr.1 = k then (k, v) else pr)
  else l ++ [(k, v)]

def eraseK {α : Type} (l : List (Int × α)) (k : Int) : List (Int × α) :=
  l.filter (fun pr => pr.1 ≠ k)

/-- One iteration of `LogRecovery::Redo`'s inner loop on a deserialized
record (log_recovery.cpp:78-158): record the lsn-to-offset mapping, then
dispatch on the record type.  The five tuple records fetch the page, skip
via `break` when `page->GetLSN() >= record.GetLSN()` (without unpinning),
else mutate and unpin dirty.  The NEWPAGE case fetches, re-initializes the
page with no LSN comparison, and unpins dirty.  `none` models a failed
`assert(page != nullptr)`. -/
def redoRecord (st0 : RState) (r : LogRecord) (fileOffset : Int) :
    Option RState :=
  let st := { st0 with lsnMapping := upsert st0.lsnMapping r.lsn fileOffset }
  match r.recType with
  | LogRecordType.begin =>
    some { st with activeTxn := upsert st.activeTxn r.txnId r.lsn }
  | LogRecordType.commit =>
    some { st with activeTxn := eraseK st.activeTxn r.txnId }
  | LogRecordType.abort =>
    some { st with activeTxn := eraseK st.activeTxn r.txnId }
  | LogRecordType.insert | LogRecordType.update | LogRecordType.applydelete
  | LogRecordType.markdelete | LogRecordType.rollbackdelete =>
    match lookupPg st.pages r.pageId with
    | none => none
    | some pg =>
      if pg.lsn ≥ r.lsn then
        some { st with trace := st.trace ++ [RecEvent.fetch r.pageId] }
      else
        some { st with
          pages := upsert st.pages r.pageId { pg with mods := pg.mods + 1 },
          trace := st.trace ++
            [RecEvent.fetch r.pageId, RecEvent.unpin r.pageId true] }
  | LogRecordType.newpage =>
    match lookupPg st.pages r.pageId with
    | none => none
    | some pg =>
      some { st with
        pages := upsert st.pages r.pageId { pg with mods := pg.mods + 1 },
        trace := st.trace ++
          [RecEvent.fetch r.pageId, RecEvent.unpin r.pageId true] }
  | LogRecordType.invalid => some st

/-- FetchPage calls for `pid` in a Redo trace. -/
def countFetch (tr : List RecEvent) (pid : Int) : Nat :=
  (tr.filter (fun e => e = RecEvent.fetch pid)).length

/-- UnpinPage calls for `pid` in a Redo trace. -/
def countUnpin (tr : List RecEvent) (pid : Int) : Nat :=
  (tr.filter (fun e => match e with
    | RecEvent.unpin p _ => p = pid
    | _ => false)).length

end Recovery

/-! ### B+tree deletion (b_plus_tree.cpp, with the page-level helpers from
page/b_plus_tree_internal_page.cpp and page/b_plus_tree_leaf_page.cpp) -/

namespace BTree

inductive BTEvent where
  | fetchPage (pid : Int)
  | unpinPage (pid : Int) (dirty : Bool)
  | deletePage (pid : Int)
deriving Repr, DecidableEq

/-- A B+tree page header as the deletion path reads it: page id, parent id
(`INVALID_PAGE_ID = -1` at the root), leaf flag, capacity bounds, entry
count, and — for internal pages — the child page ids `array[i].second`.
Keys are never compared on this path and are abstracted away.  The
`GetMinSize`/`IsRootPage` accessor bodies live in b_plus_tree_page.cpp,
which is not among the sources; Modelled from the spec: `min_size =
⌈max_size/2⌉` is stored per page and a node is root iff its parent page id
is `INVALID_PAGE_ID`. -/
structure BTNode where
  pageId : Int
  parentPageId : Int
  isLeaf : Bool
  maxSize : Nat
  minSize : Nat
  size : Nat
  children : List Int
deriving Repr, DecidableEq

/-- The tree as the deletion path observes it: the live pages, the root
page id, the trace of buffer-pool calls, and the transaction's
`deleted_page_set`. -/
structure BTState where
  nodes : List BTNode
  rootPageId : Int
  trace : List BTEvent
  deletedPageSet : List Int
deriving Repr, DecidableEq

def getNode (st : BTState) (pid : Int) : Option BTNode :=
  st.nodes.find? (fun n => n.pageId = pid)

def setNode (st : BTState) (n : BTNode) : BTState :=
  { st with nodes := st.nodes.map (fun m => if m.pageId = n.pageId then n else m) }

/-- `BufferPoolManager::DeletePage` as the tree sees it: the page leaves
the pool. -/
def dropNode (st : BTState) (pid : Int) : BTState :=
  { st with nodes := st.nodes.filter (fun m => m.pageId ≠ pid) }

def emit (st : BTState) (es : List BTEvent) : BTState :=
  { st with trace := st.trace ++ es }

/-- `BPlusTreeInternalPage::ValueIndex` (b_plus_tree_internal_page.cpp:52-60):
sequential scan; falls back to `GetSize()-1` when absent. -/
def valueIndex (p : BTNode) (v : Int) : Nat :=
  (p.children.findIdx? (fun c => c = v)).getD (p.size - 1)

/-- `BPlusTreeInternalPage::ValueAt` (asserts `0 <= index < GetSize()`). -/
def valueAt (p : BTNode) (i : Nat) : Option Int :=
  if i < p.size then p.children[i]? else none

/-- `MoveAllTo`: leaf version (b_plus_tree_leaf_page.cpp:217-223) copies the
entries and the next pointer; internal version
(b_plus_tree_internal_page.cpp:202-226) additionally fetches the parent for
the separator-key fix-up (unpinned clean) and re-parents every moved child
(fetch + unpin dirty per child).  Entry contents are abstracted to counts
and child lists. -/
def moveAllTo (st : BTState) (nodeId recId : Int) : Option BTState :=
  match getNode st nodeId, getNode st recId with
  | some nd, some rc =>
    if nd.isLeaf then
      some (setNode (setNode st { rc with size := rc.size + nd.size })
        { nd with size := 0 })
    else
      if (getNode st nd.parentPageId).isSome ∧
          nd.children.all (fun c => (getNode st c).isSome) then
        let st1 := emit st ([BTEvent.fetchPage nd.parentPageId,
          BTEvent.unpinPage nd.parentPageId false] ++
          (nd.children.map (fun c => [BTEvent.fetchPage c,
            BTEvent.unpinPage c true])).flatten)
        some { st1 with nodes := st1.nodes.map (fun m =>
          if m.pageId = nodeId then { m with size := 0, children := [] }
          else if m.pageId = recId then
            { m with size := m.size + nd.size,
                     children := m.children ++ nd.children }
          else if m.pageId ∈ nd.children then { m with parentPageId := recId }
          else m) }
      else none
  | _, _ => none

/-- `BPlusTree::Redistribute` (b_plus_tree.cpp:428-445): in every branch one
entry moves from the larger sibling to the smaller one (the page-level move
helpers' parent/child traffic — balanced fetch/unpin pairs, no
deallocation — is abstracted away), then both pages are unpinned dirty. -/
def Redistribute (st : BTState) (neighborId nodeId : Int) : Option BTState :=
  match getNode st neighborId, getNode st nodeId with
  | some nbr, some nd =>
    let pair := if nd.size < nbr.size
                then ({ nd with size := nd.size + 1 },
                      { nbr with size := nbr.size - 1 })
                else ({ nd with size := nd.size - 1 },
                      { nbr with size := nbr.size + 1 })
    some (emit (setNode (setNode st pair.1) pair.2)
      [BTEvent.unpinPage nodeId true, BTEvent.unpinPage neighborId true])
  | _, _ => none

/-- `BPlusTree::AdjustRoot` (b_plus_tree.cpp:456-491). -/
def AdjustRoot (st : BTState) (rootId : Int) : Option (Bool × BTState) :=
  match getNode st rootId with
  | none => none
  | some root =>
    if root.isLeaf then
      if root.size = 0 then
        some (true, dropNode (emit { st with rootPageId := -1 }
          [BTEvent.deletePage rootId]) rootId)
      else some (false, st)
    else
      if root.size = 1 then
        match valueAt root 0 with
        | none => none
        | some newRootId =>
          match getNode st newRootId with
          | none => none
          | some nr =>
            let st1 := setNode { st with rootPageId := newRootId }
              { nr with parentPageId := -1 }
            some (true, dropNode (emit st1 [BTEvent.fetchPage newRootId,
              BTEvent.unpinPage rootId true, BTEvent.unpinPage newRootId true,
              BTEvent.deletePage rootId]) rootId)
      else some (false, st)

/-- The mutually recursive pair `CoalesceOrRedistribute`/`Coalesce`
(b_plus_tree.cpp:333-414), compiled to a single fuel-indexed dispatcher so
that it reduces computationally: `Sum.inl (st, nodeId)` runs
`CoalesceOrRedistribute(node)`, `Sum.inr (st, neighbor, node, parent,
index)` runs `Coalesce(neighbor, node, parent, index)`; every hop between
the two consumes one unit of fuel.  `CoalesceOrRedistribute`: the leftmost
node merges its right neighbor into itself (returning false); any other
node merges itself into its left neighbor (returning true).  `Coalesce`:
move everything from `node` into `neighbor`, remove the parent entry, unpin
both pages, and call `buffer_pool_manager_->DeletePage(node)` immediately —
during the merge; the transaction's `deleted_page_set` is never touched;
recurse on an underflowing parent. -/
def corAux : Nat → (BTState × Int) ⊕ (BTState × Int × Int × Int × Nat) →
    Option (Bool × BTState)
  | 0, _ => none
  | f + 1, Sum.inl (st, nodeId) =>
    match getNode st nodeId with
    | none => none
    | some node =>
      if node.parentPageId = -1 then AdjustRoot st nodeId
      else
        match getNode st node.parentPageId with
        | none => none
        | some parent =>
          let st1 := emit st [BTEvent.fetchPage parent.pageId]
          let idx := valueIndex parent nodeId
          if idx = 0 then
            match valueAt parent (idx + 1) with
            | none => none
            | some nbrId =>
              match getNode st nbrId with
              | none => none
              | some nbr =>
                let st2 := emit st1 [BTEvent.fetchPage nbrId]
                if node.size + nbr.size ≤ node.maxSize then
                  match corAux f
                      (Sum.inr (st2, nodeId, nbrId, parent.pageId, idx + 1)) with
                  | none => none
                  | some (_, st3) => some (false, st3)
                else
                  match Redistribute st2 nbrId nodeId with
                  | none => none
                  | some st3 =>
                    some (false, emit st3 [BTEvent.unpinPage parent.pageId true])
          else
            match valueAt parent (idx - 1) with
            | none => none
            | some nbrId =>
              match getNode st nbrId with
              | none => none
              | some nbr =>
                let st2 := emit st1 [BTEvent.fetchPage nbrId]
                if node.size + nbr.size ≤ node.maxSize then
                  match corAux f
                      (Sum.inr (st2, nbrId, nodeId, parent.pageId, idx)) with
                  | none => none
                  | some (_, st3) => some (true, st3)
                else
                  match Redistribute st2 nbrId nodeId with
                  | none => none
                  | some st3 =>
                    some (false, emit st3 [BTEvent.unpinPage parent.pageId true])
  | f + 1, Sum.inr (st, neighborId, nodeId, parentId, index) =>
    match moveAllTo st nodeId neighborId with
    | none => none
    | some st1 =>
      match getNode st1 parentId with
      | none => none
      | some parent =>
        let parent1 := { parent with
          size := parent.size - 1,
          children := parent.children.eraseIdx index }
        let st2 := setNode st1 parent1
        let st3 := dropNode (emit st2 [BTEvent.unpinPage nodeId true,
          BTEvent.unpinPage neighborId true, BTEvent.deletePage nodeId]) nodeId
        if parent1.size < parent1.minSize then
          corAux f (Sum.inl (st3, parentId))
        else
          some (false, emit st3 [BTEvent.unpinPage parentId true])

/-- `BPlusTree::CoalesceOrRedistribute` (b_plus_tree.cpp:333-381). -/
def CoalesceOrRedistribute (fuel : Nat) (st : BTState) (nodeId : Int) :
    Option (Bool × BTState) :=
  corAux fuel (Sum.inl (st, nodeId))

/-- `BPlusTree::Coalesce` (b_plus_tree.cpp:395-414). -/
def Coalesce (fuel : Nat) (st : BTState) (neighborId nodeId parentId : Int)
    (index : Nat) : Option (Bool × BTState) :=
  corAux (fuel + 1) (Sum.inr (st, neighborId, nodeId, parentId, index))

end BTree

end CmuDb

/-! ## Theorems -/

namespace CmuDb

namespace ExtHash

variable {K V : Type} [DecidableEq K]

theorem lookupA_setA (l : List (K × V)) (k : K) (v : V) :
    lookupA (setA l k v) k = some v := by
  induction l with
  | nil => simp [setA, lookupA]
  | cons p rest ih =>
    obtain ⟨k', v'⟩ := p
    by_cases hk : k' = k
    · simp [setA, hk, lookupA]
    · simp [setA, hk, lookupA, ih]

theorem lookupA_eraseA (l : List (K × V)) (k : K) :
    lookupA (eraseA l k) k = none := by
  induction l with
  | nil => simp [eraseA, lookupA]
  | cons p rest ih =>
    obtain ⟨k', v'⟩ := p
    by_cases hk : k' = k
    · simpa [eraseA, hk] using ih
    · simpa [eraseA, hk, lookupA] using ih

theorem length_setA_of_mem (l : List (K × V)) (k : K) (v : V)
    (hmem : (lookupA l k).isSome) : (setA l k v).length = l.length := by
  induction l with
  | nil => simp [lookupA] at hmem
  | cons p rest ih =>
    obtain ⟨k', v'⟩ := p
    by_cases hk : k' = k
    · simp [setA, hk]
    · simp only [lookupA, hk, if_false] at hmem
      simp [setA, hk, ih hmem]

theorem lookupA_filter (p : K × V → Bool) (l : List (K × V)) (k : K)
    (hp : ∀ v, p (k, v) = true) :
    lookupA (l.filter p) k = lookupA l k := by
  induction l with
  | nil => simp [lookupA]
  | cons q rest ih =>
    obtain ⟨k', v'⟩ := q
    by_cases hk : k' = k
    · subst hk
      simp [List.filter, hp v', lookupA, ih]
    · cases hfk : p (k', v') with
      | true => simp [List.filter, hfk, lookupA, hk, ih]
      | false => simp [List.filter, hfk, lookupA, hk, ih]

theorem length_filter_bool_split (p : K × V → Bool) (l : List (K × V)) :
    (l.filter (fun q => ! p q)).length + (l.filter p).length = l.length := by
  induction l with
  | nil => simp
  | cons q rest ih =>
    cases hq : p q with
    | true => simp [List.filter, hq, ← ih]; omega
    | false => simp [List.filter, hq, ← ih]; omega

theorem slotB_eq_of_getElem? {s : HState K V} {i t : Nat}
    (hg : s.bucketDirectory[i]? = some t) : slotB s i = t := by
  simp [slotB, List.getD_eq_getElem?_getD, hg]

theorem lt_dirLength_of_getElem? {s : HState K V} {i t : Nat}
    (hg : s.bucketDirectory[i]? = some t) : i < s.bucketDirectory.length := by
  by_contra hge
  rw [List.getElem?_eq_none (Nat.le_of_not_lt hge)] at hg
  exact Option.noConfusion hg

theorem getBucket_eq_slot (h : K → Nat) (s : HState K V) (k : K)
    (hlen : getBucketIndex s (h k) < s.bucketDirectory.length) :
    getBucket h s k = some (slotB s (getBucketIndex s (h k))) := by
  rw [getBucket, List.getElem?_eq_getElem hlen]
  simp [slotB, List.getD_eq_getElem?_getD, List.getElem?_eq_getElem hlen]

theorem lt_bucketsLength_of_bucketAt {s : HState K V} {t : Nat} {tb : Bucket K V}
    (hba : bucketAt s t = some tb) : t < s.buckets.length := by
  by_contra hge
  rw [bucketAt, List.getElem?_eq_none (Nat.le_of_not_lt hge)] at hba
  exact Option.noConfusion hba

theorem localOf_eq_of_bucketAt {s : HState K V} {t : Nat} {tb : Bucket K V}
    (hba : bucketAt s t = some tb) : localOf s t = tb.localDepth := by
  simp [localOf, hba]

theorem testBit_eq_of_mod_two_pow_succ {x y m : Nat}
    (hxy : x % 2 ^ (m + 1) = y % 2 ^ (m + 1)) : Nat.testBit x m = Nat.testBit y m := by
  have hx : Nat.testBit x m = Nat.testBit (x % 2 ^ (m + 1)) m := by
    simp [Nat.testBit_mod_two_pow, Nat.lt_succ_self]
  have hy : Nat.testBit y m = Nat.testBit (y % 2 ^ (m + 1)) m := by
    simp [Nat.testBit_mod_two_pow, Nat.lt_succ_self]
  rw [hx, hy, hxy]

theorem mod_eq_of_mod_two_pow_le {x y m n : Nat} (hmn : m ≤ n)
    (hxy : x % 2 ^ n = y % 2 ^ n) : x % 2 ^ m = y % 2 ^ m := by
  have hd : 2 ^ m ∣ 2 ^ n := pow_dvd_pow 2 hmn
  calc x % 2 ^ m = x % 2 ^ n % 2 ^ m := (Nat.mod_mod_of_dvd x hd).symm
    _ = y % 2 ^ n % 2 ^ m := by rw [hxy]
    _ = y % 2 ^ m := Nat.mod_mod_of_dvd y hd

theorem doubleDirectory_dirLength (s : HState K V) :
    (doubleDirectory s).bucketDirectory.length = 2 * s.bucketDirectory.length := by
  simp [doubleDirectory, Nat.two_mul]

theorem slotB_doubleDirectory (s : HState K V)
    (hd : s.bucketDirectory.length = 2 ^ s.globalDepth) (i : Nat)
    (hi : i < 2 ^ (s.globalDepth + 1)) :
    slotB (doubleDirectory s) i = slotB s (i % 2 ^ s.globalDepth) := by
  have hpow : (2 : Nat) ^ (s.globalDepth + 1) = 2 ^ s.globalDepth + 2 ^ s.globalDepth := by
    rw [pow_succ]; omega
  by_cases hlt : i < 2 ^ s.globalDepth
  · rw [Nat.mod_eq_of_lt hlt]
    simp only [slotB, doubleDirectory, List.getD_eq_getElem?_getD]
    rw [List.getElem?_append_left (by omega)]
  · have hge : 2 ^ s.globalDepth ≤ i := Nat.le_of_not_lt hlt
    have hmod : i % 2 ^ s.globalDepth = i - 2 ^ s.globalDepth := by
      rw [Nat.mod_eq_sub_mod hge, Nat.mod_eq_of_lt (by omega)]
    simp only [slotB, doubleDirectory, List.getD_eq_getElem?_getD]
    rw [List.getElem?_append_right (by omega), hmod, hd]

theorem localOf_doubleDirectory (s : HState K V) (j : Nat) :
    localOf (doubleDirectory s) j = localOf s j := rfl

theorem bucketAt_doubleDirectory (s : HState K V) (j : Nat) :
    bucketAt (doubleDirectory s) j = bucketAt s j := rfl

theorem WF_doubleDirectory {s : HState K V} (hw : WF s) : WF (doubleDirectory s) := by
  obtain ⟨hd, hb, hl, hc⟩ := hw
  have hgd : (doubleDirectory s).globalDepth = s.globalDepth + 1 := rfl
  have hdl : (doubleDirectory s).bucketDirectory.length = 2 ^ (s.globalDepth + 1) := by
    rw [doubleDirectory_dirLength, hd, pow_succ]; omega
  have hmlt : ∀ i : Nat, i % 2 ^ s.globalDepth < s.bucketDirectory.length := by
    intro i
    rw [hd]
    exact Nat.mod_lt _ (Nat.pos_pow_of_pos _ (by omega))
  refine ⟨by rw [hdl, hgd], ?_, ?_, ?_⟩
  · intro i hi
    rw [hdl] at hi
    rw [slotB_doubleDirectory s hd i hi]
    exact hb _ (hmlt i)
  · intro i hi
    rw [hdl] at hi
    rw [slotB_doubleDirectory s hd i hi, localOf_doubleDirectory, hgd]
    exact Nat.le_succ_of_le (hl _ (hmlt i))
  · intro i hi j hj hmod
    rw [hdl] at hi hj
    rw [slotB_doubleDirectory s hd i hi, slotB_doubleDirectory s hd j hj]
    rw [slotB_doubleDirectory s hd i hi, localOf_doubleDirectory] at hmod
    have hm : localOf s (slotB s (i % 2 ^ s.globalDepth)) ≤ s.globalDepth := hl _ (hmlt i)
    have hdvd : (2 : Nat) ^ localOf s (slotB s (i % 2 ^ s.globalDepth)) ∣ 2 ^ s.globalDepth :=
      pow_dvd_pow 2 hm
    refine hc _ (hmlt i) _ (hmlt j) ?_
    rw [Nat.mod_mod_of_dvd i hdvd, Nat.mod_mod_of_dvd j hdvd]
    exact hmod

theorem totalCount_doubleDirectory (s : HState K V) :
    totalCount (doubleDirectory s) = totalCount s := by
  unfold totalCount
  have hts : (doubleDirectory s).bucketDirectory.toFinset = s.bucketDirectory.toFinset := by
    simp [doubleDirectory]
  rw [hts]
  rfl

theorem mem_dir_iff_slot (s : HState K V) (x : Nat) :
    x ∈ s.bucketDirectory ↔ ∃ i, i < s.bucketDirectory.length ∧ slotB s i = x := by
  rw [List.mem_iff_getElem]
  constructor
  · rintro ⟨i, hi, rfl⟩
    exact ⟨i, hi, by simp [slotB, List.getD_eq_getElem?_getD, List.getElem?_eq_getElem hi]⟩
  · rintro ⟨i, hi, rfl⟩
    exact ⟨i, hi, by simp [slotB, List.getD_eq_getElem?_getD, List.getElem?_eq_getElem hi]⟩

theorem find_eq_lookup (h : K → Nat) {s : HState K V} {k : K} {t : Nat} {tb : Bucket K V}
    (hgb : getBucket h s k = some t) (hba : bucketAt s t = some tb) :
    find h s k = match lookupA tb.contents k with
      | some v => some (true, some v)
      | none => some (false, none) := by
  simp [find, hgb, hba]

theorem splitCore_props (h : K → Nat) (s1 : HState K V) (k : K) (t : Nat) (tb : Bucket K V)
    (hw1 : WF s1) (hba1 : bucketAt s1 t = some tb) (hldlt : tb.localDepth < s1.globalDepth)
    (hslot1 : slotB s1 (getBucketIndex s1 (h k)) = t) :
    WF (splitCore h s1 t tb) ∧
    totalCount (splitCore h s1 t tb) = totalCount s1 ∧
    find h (splitCore h s1 t tb) k = find h s1 k ∧
    (splitCore h s1 t tb).bucketSizeLimit = s1.bucketSizeLimit := by
  obtain ⟨hd1, hb1, hl1, hc1⟩ := hw1
  have hpos : 0 < (2 : Nat) ^ s1.globalDepth := Nat.pos_pow_of_pos _ (by omega)
  have hldpos : 0 < (2 : Nat) ^ tb.localDepth := Nat.pos_pow_of_pos _ (by omega)
  have hqlt : getBucketIndex s1 (h k) < s1.bucketDirectory.length := by
    rw [hd1]; exact Nat.mod_lt _ hpos
  have htlt : t < s1.buckets.length := lt_bucketsLength_of_bucketAt hba1
  have hlocal1t : localOf s1 t = tb.localDepth := localOf_eq_of_bucketAt hba1
  have hs2gd : (splitCore h s1 t tb).globalDepth = s1.globalDepth := rfl
  have hs2len : (splitCore h s1 t tb).bucketDirectory.length = s1.bucketDirectory.length := by
    simp [splitCore, splitDir]
  have hslot2 : ∀ i, i < s1.bucketDirectory.length → slotB (splitCore h s1 t tb) i =
      (if slotB s1 i = t then
        (if Nat.testBit i tb.localDepth then s1.buckets.length + 1 else s1.buckets.length)
      else slotB s1 i) := by
    intro i hi
    show (splitDir s1 t tb.localDepth).getD i 0 = _
    rw [splitDir, List.getD_eq_getElem?_getD, List.getElem?_map, List.getElem?_range hi]
    rfl
  have hbk2_lt : ∀ j, j < s1.buckets.length →
      bucketAt (splitCore h s1 t tb) j = bucketAt s1 j := by
    intro j hj
    show (s1.buckets ++ [aBucket h tb, bBucket h tb])[j]? = _
    rw [List.getElem?_append_left hj]
    rfl
  have hbk2a : bucketAt (splitCore h s1 t tb) s1.buckets.length = some (aBucket h tb) := by
    show (s1.buckets ++ [aBucket h tb, bBucket h tb])[s1.buckets.length]? = _
    rw [List.getElem?_append_right (le_refl _)]
    simp
  have hbk2b : bucketAt (splitCore h s1 t tb) (s1.buckets.length + 1) = some (bBucket h tb) := by
    show (s1.buckets ++ [aBucket h tb, bBucket h tb])[s1.buckets.length + 1]? = _
    rw [List.getElem?_append_right (by omega)]
    simp
  have hlocal2_lt : ∀ j, j < s1.buckets.length →
      localOf (splitCore h s1 t tb) j = localOf s1 j := by
    intro j hj
    rw [localOf, localOf, hbk2_lt j hj]
  have hlocal2a : localOf (splitCore h s1 t tb) s1.buckets.length = tb.localDepth + 1 := by
    rw [localOf, hbk2a]; rfl
  have hlocal2b : localOf (splitCore h s1 t tb) (s1.buckets.length + 1) = tb.localDepth + 1 := by
    rw [localOf, hbk2b]; rfl
  have hcongr_t : ∀ i, i < s1.bucketDirectory.length →
      i % 2 ^ tb.localDepth = getBucketIndex s1 (h k) % 2 ^ tb.localDepth →
      slotB s1 i = t := by
    intro i hi hm
    have hx := hc1 (getBucketIndex s1 (h k)) hqlt i hi
    rw [hslot1, hlocal1t] at hx
    exact hx hm.symm
  have hldpow : (2 : Nat) ^ tb.localDepth < 2 ^ s1.globalDepth :=
    Nat.pow_lt_pow_right (by omega) hldlt
  have hldpow_le : (2 : Nat) ^ (tb.localDepth + 1) ≤ 2 ^ s1.globalDepth :=
    Nat.pow_le_pow_right (by omega) (Nat.succ_le_of_lt hldlt)
  have hi0lt : getBucketIndex s1 (h k) % 2 ^ tb.localDepth < s1.bucketDirectory.length := by
    rw [hd1]
    exact lt_of_lt_of_le (Nat.mod_lt _ hldpos) (le_of_lt hldpow)
  have hslot_i0 : slotB s1 (getBucketIndex s1 (h k) % 2 ^ tb.localDepth) = t :=
    hcongr_t _ hi0lt (Nat.mod_mod_of_dvd _ (dvd_refl _))
  have hbit_i0 : Nat.testBit (getBucketIndex s1 (h k) % 2 ^ tb.localDepth) tb.localDepth
      = false :=
    Nat.testBit_lt_two_pow (Nat.mod_lt _ hldpos)
  have hi1lt : getBucketIndex s1 (h k) % 2 ^ tb.localDepth + 2 ^ tb.localDepth
      < s1.bucketDirectory.length := by
    rw [hd1]
    have hmlt := Nat.mod_lt (getBucketIndex s1 (h k)) hldpos
    have hps : (2 : Nat) ^ (tb.localDepth + 1) = 2 ^ tb.localDepth * 2 := pow_succ 2 _
    omega
  have hi1mod : (getBucketIndex s1 (h k) % 2 ^ tb.localDepth + 2 ^ tb.localDepth)
      % 2 ^ tb.localDepth = getBucketIndex s1 (h k) % 2 ^ tb.localDepth := by
    rw [Nat.add_mod_right]
    exact Nat.mod_mod_of_dvd _ (dvd_refl _)
  have hslot_i1 : slotB s1
      (getBucketIndex s1 (h k) % 2 ^ tb.localDepth + 2 ^ tb.localDepth) = t :=
    hcongr_t _ hi1lt hi1mod
  have hbit_i1 : Nat.testBit
      (getBucketIndex s1 (h k) % 2 ^ tb.localDepth + 2 ^ tb.localDepth) tb.localDepth
      = true := by
    rw [Nat.add_comm, Nat.testBit_two_pow_add_eq, hbit_i0]
    rfl
  have hball1 : ∀ x ∈ s1.bucketDirectory, x < s1.buckets.length := by
    intro x hx
    obtain ⟨i, hi, rfl⟩ := (mem_dir_iff_slot s1 x).mp hx
    exact hb1 i hi
  have htmem1 : t ∈ s1.bucketDirectory :=
    (mem_dir_iff_slot s1 t).mpr ⟨_, hqlt, hslot1⟩
  -- the finset of referenced heap indices after the split
  have hmem2 : ∀ x, x ∈ (splitCore h s1 t tb).bucketDirectory ↔
      ∃ i, i < s1.bucketDirectory.length ∧
        (if slotB s1 i = t then
          (if Nat.testBit i tb.localDepth then s1.buckets.length + 1 else s1.buckets.length)
        else slotB s1 i) = x := by
    intro x
    show x ∈ splitDir s1 t tb.localDepth ↔ _
    rw [splitDir]
    simp [List.mem_map, List.mem_range]
  have hfin : (splitCore h s1 t tb).bucketDirectory.toFinset =
      Insert.insert s1.buckets.length
        (Insert.insert (s1.buckets.length + 1) (s1.bucketDirectory.toFinset.erase t)) := by
    ext x
    simp only [List.mem_toFinset, Finset.mem_insert, Finset.mem_erase]
    rw [hmem2]
    constructor
    · rintro ⟨i, hi, rfl⟩
      by_cases hsi : slotB s1 i = t
      · by_cases hbit : Nat.testBit i tb.localDepth
        · simp [hsi, hbit]
        · simp [hsi, hbit]
      · simp only [hsi, if_false]
        exact Or.inr (Or.inr ⟨hsi, (mem_dir_iff_slot s1 _).mpr ⟨i, hi, rfl⟩⟩)
    · rintro (rfl | rfl | ⟨hne, hmem⟩)
      · exact ⟨_, hi0lt, by rw [if_pos hslot_i0, if_neg (by rw [hbit_i0]; exact Bool.false_ne_true)]⟩
      · exact ⟨_, hi1lt, by rw [if_pos hslot_i1, if_pos hbit_i1]⟩
      · obtain ⟨i, hi, hsi⟩ := (mem_dir_iff_slot s1 x).mp hmem
        refine ⟨i, hi, ?_⟩
        rw [hsi, if_neg hne]
  have hnotina : s1.buckets.length ∉
      Insert.insert (s1.buckets.length + 1) (s1.bucketDirectory.toFinset.erase t) := by
    simp only [Finset.mem_insert, Finset.mem_erase, List.mem_toFinset]
    rintro (habs | ⟨-, hmem⟩)
    · omega
    · exact absurd (hball1 _ hmem) (by omega)
  have hnotinb : s1.buckets.length + 1 ∉ s1.bucketDirectory.toFinset.erase t := by
    simp only [Finset.mem_erase, List.mem_toFinset]
    rintro ⟨-, hmem⟩
    exact absurd (hball1 _ hmem) (by omega)
  have hsum2 : totalCount (splitCore h s1 t tb) =
      (aBucket h tb).contents.length + ((bBucket h tb).contents.length +
        ∑ j ∈ s1.bucketDirectory.toFinset.erase t,
          ((bucketAt s1 j).map (fun b => b.contents.length)).getD 0) := by
    rw [totalCount, hfin, Finset.sum_insert hnotina, Finset.sum_insert hnotinb]
    congr 1
    · rw [hbk2a]
      rfl
    congr 1
    · rw [hbk2b]
      rfl
    · refine Finset.sum_congr rfl ?_
      intro j hj
      have hjlt : j < s1.buckets.length :=
        hball1 j (List.mem_toFinset.mp (Finset.mem_of_mem_erase hj))
      rw [hbk2_lt j hjlt]
  have hsum1 : totalCount s1 = tb.contents.length +
      ∑ j ∈ s1.bucketDirectory.toFinset.erase t,
        ((bucketAt s1 j).map (fun b => b.contents.length)).getD 0 := by
    rw [totalCount, ← Finset.add_sum_erase _ _ (List.mem_toFinset.mpr htmem1)]
    congr 1
    rw [hba1]
    rfl
  have hab : (aBucket h tb).contents.length + (bBucket h tb).contents.length
      = tb.contents.length :=
    length_filter_bool_split (fun p => Nat.testBit (h p.1) tb.localDepth) tb.contents
  have htotal : totalCount (splitCore h s1 t tb) = totalCount s1 := by
    rw [hsum2, hsum1, ← hab]; ring
  -- find is unchanged
  have hgb1 : getBucket h s1 k = some t := by
    rw [getBucket_eq_slot h s1 k hqlt, hslot1]
  have hqbit : Nat.testBit (getBucketIndex s1 (h k)) tb.localDepth
      = Nat.testBit (h k) tb.localDepth := by
    show Nat.testBit (h k % 2 ^ s1.globalDepth) tb.localDepth = _
    rw [Nat.testBit_mod_two_pow]
    simp [hldlt]
  have hq2lt : getBucketIndex (splitCore h s1 t tb) (h k)
      < (splitCore h s1 t tb).bucketDirectory.length := by
    rw [hs2len]
    exact hqlt
  have hgb2 : getBucket h (splitCore h s1 t tb) k =
      some (if Nat.testBit (h k) tb.localDepth then s1.buckets.length + 1
            else s1.buckets.length) := by
    rw [getBucket_eq_slot h _ k hq2lt]
    have hqq : getBucketIndex (splitCore h s1 t tb) (h k) = getBucketIndex s1 (h k) := rfl
    rw [hqq, hslot2 _ hqlt, if_pos hslot1, hqbit]
  have hfind : find h (splitCore h s1 t tb) k = find h s1 k := by
    rw [find_eq_lookup h hgb1 hba1]
    cases hbit : Nat.testBit (h k) tb.localDepth with
    | false =>
      have hgb2' : getBucket h (splitCore h s1 t tb) k = some s1.buckets.length := by
        rw [hgb2, hbit]; rfl
      rw [find_eq_lookup h hgb2' hbk2a]
      have hlk : lookupA (aBucket h tb).contents k = lookupA tb.contents k := by
        apply lookupA_filter
        intro v
        simp [hbit]
      rw [hlk]
    | true =>
      have hgb2' : getBucket h (splitCore h s1 t tb) k
          = some (s1.buckets.length + 1) := by
        rw [hgb2, hbit]; rfl
      rw [find_eq_lookup h hgb2' hbk2b]
      have hlk : lookupA (bBucket h tb).contents k = lookupA tb.contents k := by
        apply lookupA_filter
        intro v
        simp [hbit]
      rw [hlk]
  -- well-formedness of the split state
  have hwf2 : WF (splitCore h s1 t tb) := by
    refine ⟨?_, ?_, ?_, ?_⟩
    · rw [hs2len, hs2gd]
      exact hd1
    · intro i hi
      rw [hs2len] at hi
      rw [hslot2 i hi]
      have hblen : (splitCore h s1 t tb).buckets.length = s1.buckets.length + 2 := by
        show (s1.buckets ++ [aBucket h tb, bBucket h tb]).length = _
        simp
      rw [hblen]
      by_cases hsi : slotB s1 i = t
      · by_cases hbit : Nat.testBit i tb.localDepth
        · rw [if_pos hsi, if_pos hbit]; omega
        · rw [if_pos hsi, if_neg hbit]; omega
      · rw [if_neg hsi]
        have := hb1 i hi
        omega
    · intro i hi
      rw [hs2len] at hi
      rw [hslot2 i hi, hs2gd]
      by_cases hsi : slotB s1 i = t
      · by_cases hbit : Nat.testBit i tb.localDepth
        · rw [if_pos hsi, if_pos hbit, hlocal2b]; omega
        · rw [if_pos hsi, if_neg hbit, hlocal2a]; omega
      · rw [if_neg hsi, hlocal2_lt _ (hb1 i hi)]
        exact hl1 i hi
    · intro i hi j hj hm
      rw [hs2len] at hi hj
      rw [hslot2 i hi] at hm ⊢
      rw [hslot2 j hj]
      by_cases hsi : slotB s1 i = t
      · rw [if_pos hsi] at hm ⊢
        have hli : localOf (splitCore h s1 t tb)
            (if Nat.testBit i tb.localDepth then s1.buckets.length + 1
             else s1.buckets.length) = tb.localDepth + 1 := by
          by_cases hbit : Nat.testBit i tb.localDepth
          · rw [if_pos hbit]; exact hlocal2b
          · rw [if_neg hbit]; exact hlocal2a
        rw [hli] at hm
        have hmld : i % 2 ^ tb.localDepth = j % 2 ^ tb.localDepth :=
          mod_eq_of_mod_two_pow_le (Nat.le_succ _) hm
        have hsj : slotB s1 j = t := by
          have hx := hc1 i hi j hj
          rw [hsi, hlocal1t] at hx
          exact hx hmld
        have hbitij : Nat.testBit i tb.localDepth = Nat.testBit j tb.localDepth :=
          testBit_eq_of_mod_two_pow_succ hm
        rw [if_pos hsj, hbitij]
      · rw [if_neg hsi] at hm ⊢
        rw [hlocal2_lt _ (hb1 i hi)] at hm
        have hsj : slotB s1 j = slotB s1 i := hc1 i hi j hj hm
        rw [hsj, if_neg hsi]
  exact ⟨hwf2, htotal, hfind, rfl⟩

theorem splitStep_props (h : K → Nat) {s s2 : HState K V} {k : K}
    (hw : WF s) (hsp : splitStep h s k = some s2) :
    WF s2 ∧ totalCount s2 = totalCount s ∧ find h s2 k = find h s k ∧
    s2.bucketSizeLimit = s.bucketSizeLimit := by
  unfold splitStep at hsp
  cases hgb : getBucket h s k with
  | none => simp only [hgb] at hsp; exact Option.noConfusion hsp
  | some t =>
  simp only [hgb] at hsp
  cases hba : bucketAt s t with
  | none => simp only [hba] at hsp; exact Option.noConfusion hsp
  | some tb =>
  simp only [hba, Option.some.injEq] at hsp
  subst hsp
  have hidxlt : getBucketIndex s (h k) < s.bucketDirectory.length :=
    lt_dirLength_of_getElem? hgb
  have hslott : slotB s (getBucketIndex s (h k)) = t := slotB_eq_of_getElem? hgb
  have hldle : tb.localDepth ≤ s.globalDepth := by
    have hx := hw.2.2.1 _ hidxlt
    rwa [hslott, localOf_eq_of_bucketAt hba] at hx
  by_cases hcase : tb.localDepth = s.globalDepth
  · rw [if_pos hcase]
    have hw1 : WF (doubleDirectory s) := WF_doubleDirectory hw
    have hba1 : bucketAt (doubleDirectory s) t = some tb := hba
    have hldlt : tb.localDepth < (doubleDirectory s).globalDepth := by
      have hg : (doubleDirectory s).globalDepth = s.globalDepth + 1 := rfl
      omega
    have hq1lt2 : getBucketIndex (doubleDirectory s) (h k) < 2 ^ (s.globalDepth + 1) := by
      show h k % 2 ^ (s.globalDepth + 1) < 2 ^ (s.globalDepth + 1)
      exact Nat.mod_lt _ (Nat.pos_pow_of_pos _ (by omega))
    have hslot1 : slotB (doubleDirectory s)
        (getBucketIndex (doubleDirectory s) (h k)) = t := by
      rw [slotB_doubleDirectory s hw.1 _ hq1lt2]
      have hq : getBucketIndex (doubleDirectory s) (h k) % 2 ^ s.globalDepth
          = getBucketIndex s (h k) := by
        show h k % 2 ^ (s.globalDepth + 1) % 2 ^ s.globalDepth = h k % 2 ^ s.globalDepth
        exact Nat.mod_mod_of_dvd _ (pow_dvd_pow 2 (Nat.le_succ _))
      rw [hq, hslott]
    obtain ⟨hwf2, htot, hfind, hlim⟩ :=
      splitCore_props h (doubleDirectory s) k t tb hw1 hba1 hldlt hslot1
    refine ⟨hwf2, ?_, ?_, hlim⟩
    · rw [htot, totalCount_doubleDirectory]
    · rw [hfind]
      have hq1len : getBucketIndex (doubleDirectory s) (h k)
          < (doubleDirectory s).bucketDirectory.length := by
        rw [hw1.1]
        exact hq1lt2
      have hgb1 : getBucket h (doubleDirectory s) k = some t := by
        rw [getBucket_eq_slot h (doubleDirectory s) k hq1len, hslot1]
      rw [find_eq_lookup h hgb1 hba1, find_eq_lookup h hgb hba]
  · rw [if_neg hcase]
    have hldlt : tb.localDepth < s.globalDepth := lt_of_le_of_ne hldle hcase
    exact splitCore_props h s k t tb hw hba hldlt hslott

theorem insertLoop_props (h : K → Nat) :
    ∀ (fuel : Nat) (s s' : HState K V) (k : K), WF s →
      insertLoop h fuel s k = some s' →
      WF s' ∧ totalCount s' = totalCount s ∧ find h s' k = find h s k := by
  intro fuel
  induction fuel with
  | zero =>
    intro s s' k hw hloop
    rw [insertLoop] at hloop
    cases hgb : getBucket h s k with
    | none => simp only [hgb] at hloop; exact Option.noConfusion hloop
    | some t =>
    simp only [hgb] at hloop
    cases hba : bucketAt s t with
    | none => simp only [hba] at hloop; exact Option.noConfusion hloop
    | some tb =>
    simp only [hba] at hloop
    by_cases hfull : tb.contents.length = s.bucketSizeLimit
    · rw [if_pos hfull] at hloop
      exact Option.noConfusion hloop
    · rw [if_neg hfull] at hloop
      cases hloop
      exact ⟨hw, rfl, rfl⟩
  | succ fuel ih =>
    intro s s' k hw hloop
    rw [insertLoop] at hloop
    cases hgb : getBucket h s k with
    | none => simp only [hgb] at hloop; exact Option.noConfusion hloop
    | some t =>
    simp only [hgb] at hloop
    cases hba : bucketAt s t with
    | none => simp only [hba] at hloop; exact Option.noConfusion hloop
    | some tb =>
    simp only [hba] at hloop
    by_cases hfull : tb.contents.length = s.bucketSizeLimit
    · rw [if_pos hfull] at hloop
      cases hsp : splitStep h s k with
      | none => simp only [hsp] at hloop; exact Option.noConfusion hloop
      | some sm =>
      simp only [hsp] at hloop
      obtain ⟨hwm, htotm, hfindm, _⟩ := splitStep_props h hw hsp
      obtain ⟨hw', htot', hfind'⟩ := ih sm s' k hwm hloop
      exact ⟨hw', htot'.trans htotm, hfind'.trans hfindm⟩
    · rw [if_neg hfull] at hloop
      cases hloop
      exact ⟨hw, rfl, rfl⟩

theorem insert_decomp (h : K → Nat) {fuel : Nat} {s s1 : HState K V} {k : K} {v : V}
    (hins : insert h fuel s k v = some s1) :
    ∃ s' t tb, insertLoop h fuel s k = some s' ∧ getBucket h s' k = some t ∧
      bucketAt s' t = some tb ∧
      s1 = { s' with
             buckets := s'.buckets.set t { tb with contents := setA tb.contents k v } } := by
  unfold insert at hins
  cases hloop : insertLoop h fuel s k with
  | none => simp only [hloop] at hins; exact Option.noConfusion hins
  | some s' =>
  simp only [hloop] at hins
  cases hgb : getBucket h s' k with
  | none => simp only [hgb] at hins; exact Option.noConfusion hins
  | some t =>
  simp only [hgb] at hins
  cases hba : bucketAt s' t with
  | none => simp only [hba] at hins; exact Option.noConfusion hins
  | some tb =>
  simp only [hba, Option.some.injEq] at hins
  exact ⟨s', t, tb, rfl, hgb, hba, hins.symm⟩

theorem totalCount_set_same_length {s : HState K V} {t : Nat} {tb nb : Bucket K V}
    (hba : bucketAt s t = some tb) (hlen : nb.contents.length = tb.contents.length) :
    totalCount { s with buckets := s.buckets.set t nb } = totalCount s := by
  unfold totalCount
  refine Finset.sum_congr rfl ?_
  intro j hj
  by_cases hjt : j = t
  · have htlt : t < s.buckets.length := lt_bucketsLength_of_bucketAt hba
    have hget : bucketAt { s with buckets := s.buckets.set t nb } j = some nb := by
      show (s.buckets.set t nb)[j]? = _
      rw [hjt]
      exact List.getElem?_set_eq_of_lt _ htlt
    rw [hget, hjt, hba]
    simp [hlen]
  · have hget : bucketAt { s with buckets := s.buckets.set t nb } j = bucketAt s j := by
      show (s.buckets.set t nb)[j]? = s.buckets[j]?
      exact List.getElem?_set_ne (fun hh => hjt hh.symm)
    rw [hget]

end ExtHash

/-- C8: for every extendible hash table state, key `k` and value `v`, if
`Insert(k,v)` terminates then `Find(k)` returns `(true, v)`; a subsequent
`Remove(k)` returns `true` and afterwards `Find(k)` returns `(false, _)`. -/
theorem C8_insert_find_remove {K V : Type} [DecidableEq K] (h : K → Nat)
    (fuel : Nat) (s s1 : ExtHash.HState K V) (k : K) (v : V)
    (hins : ExtHash.insert h fuel s k v = some s1) :
    ExtHash.find h s1 k = some (true, some v) ∧
    ∃ s2, ExtHash.remove h s1 k = some (true, s2) ∧
      ExtHash.find h s2 k = some (false, none) := by
  unfold ExtHash.insert at hins
  cases hloop : ExtHash.insertLoop h fuel s k with
  | none => simp only [hloop] at hins; exact Option.noConfusion hins
  | some s' =>
  simp only [hloop] at hins
  cases hgb : ExtHash.getBucket h s' k with
  | none => simp only [hgb] at hins; exact Option.noConfusion hins
  | some t =>
  simp only [hgb] at hins
  cases hba : ExtHash.bucketAt s' t with
  | none => simp only [hba] at hins; exact Option.noConfusion hins
  | some tb =>
  simp only [hba, Option.some.injEq] at hins
  subst hins
  have htlt : t < s'.buckets.length := by
    by_contra hge
    rw [ExtHash.bucketAt, List.getElem?_eq_none (Nat.le_of_not_lt hge)] at hba
    exact absurd hba (by simp)
  have hgb1 : ExtHash.getBucket h
      ({ s' with buckets := s'.buckets.set t { tb with contents := ExtHash.setA tb.contents k v } }) k
      = some t := hgb
  have hba1 : ExtHash.bucketAt
      ({ s' with buckets := s'.buckets.set t { tb with contents := ExtHash.setA tb.contents k v } }) t
      = some { tb with contents := ExtHash.setA tb.contents k v } := by
    simp only [ExtHash.bucketAt]
    exact List.getElem?_set_eq_of_lt _ htlt
  refine ⟨?_, ?_⟩
  · simp only [ExtHash.find, hgb1, hba1, ExtHash.lookupA_setA]
  · refine ⟨{ s' with buckets := (s'.buckets.set t { tb with contents := ExtHash.setA tb.contents k v }).set t { tb with contents := ExtHash.eraseA (ExtHash.setA tb.contents k v) k } }, ?_, ?_⟩
    · simp only [ExtHash.remove, hgb1, hba1, ExtHash.lookupA_setA]
    · have hgb2 : ExtHash.getBucket h
          ({ s' with buckets := (s'.buckets.set t { tb with contents := ExtHash.setA tb.contents k v }).set t { tb with contents := ExtHash.eraseA (ExtHash.setA tb.contents k v) k } }) k
          = some t := hgb
      have hba2 : ExtHash.bucketAt
          ({ s' with buckets := (s'.buckets.set t { tb with contents := ExtHash.setA tb.contents k v }).set t { tb with contents := ExtHash.eraseA (ExtHash.setA tb.contents k v) k } }) t
          = some { tb with contents := ExtHash.eraseA (ExtHash.setA tb.contents k v) k } := by
        simp only [ExtHash.bucketAt]
        exact List.getElem?_set_eq_of_lt _ (by simpa using htlt)
      simp only [ExtHash.find, hgb2, hba2, ExtHash.lookupA_eraseA]

/-- Witness for C8 at a concrete input: the empty one-bucket table of
capacity 2 with the identity hash, inserting key 3 with value 30. -/
theorem C8_insert_find_remove_witness :
    ExtHash.find (fun n => n)
      ({ globalDepth := 0, bucketSizeLimit := 2, buckets := [⟨0, [(3, 30)]⟩],
         bucketDirectory := [0] } : ExtHash.HState Nat Nat) 3 = some (true, some 30) ∧
    ∃ s2, ExtHash.remove (fun n => n)
        ({ globalDepth := 0, bucketSizeLimit := 2, buckets := [⟨0, [(3, 30)]⟩],
           bucketDirectory := [0] } : ExtHash.HState Nat Nat) 3 = some (true, s2) ∧
      ExtHash.find (fun n => n) s2 3 = some (false, none) :=
  C8_insert_find_remove (fun n => n) 5
    { globalDepth := 0, bucketSizeLimit := 2, buckets := [⟨0, []⟩], bucketDirectory := [0] }
    _ 3 30 (by decide)

/-- C10: for every well-formed extendible hash table state in which key `k`
is already mapped to some value, `Insert(k, v')` overwrites the mapping: a
following `Find(k)` returns `(true, v')` and the total number of stored
key-value pairs across all buckets is unchanged. -/
theorem C10_insert_overwrites {K V : Type} [DecidableEq K] (h : K → Nat)
    (fuel : Nat) (s s1 : ExtHash.HState K V) (k : K) (v0 v' : V)
    (hw : ExtHash.WF s)
    (hfound : ExtHash.find h s k = some (true, some v0))
    (hins : ExtHash.insert h fuel s k v' = some s1) :
    ExtHash.find h s1 k = some (true, some v') ∧
    ExtHash.totalCount s1 = ExtHash.totalCount s := by
  obtain ⟨s', t, tb, hloop, hgb, hba, hs1⟩ := ExtHash.insert_decomp h hins
  obtain ⟨hw', htot', hfind'⟩ := ExtHash.insertLoop_props h fuel s s' k hw hloop
  have hfound' : ExtHash.find h s' k = some (true, some v0) := hfind'.trans hfound
  have hlk : ExtHash.lookupA tb.contents k = some v0 := by
    rw [ExtHash.find_eq_lookup h hgb hba] at hfound'
    cases hl : ExtHash.lookupA tb.contents k with
    | none => rw [hl] at hfound'; simp at hfound'
    | some w => rw [hl] at hfound'; simp at hfound'; rw [hfound']
  have htlt : t < s'.buckets.length := ExtHash.lt_bucketsLength_of_bucketAt hba
  subst hs1
  constructor
  · have hgb1 : ExtHash.getBucket h
        ({ s' with buckets := s'.buckets.set t { tb with contents := ExtHash.setA tb.contents k v' } }) k = some t := hgb
    have hba1 : ExtHash.bucketAt
        ({ s' with buckets := s'.buckets.set t { tb with contents := ExtHash.setA tb.contents k v' } }) t
        = some { tb with contents := ExtHash.setA tb.contents k v' } := by
      show (s'.buckets.set t _)[t]? = _
      exact List.getElem?_set_eq_of_lt _ htlt
    rw [ExtHash.find_eq_lookup h hgb1 hba1, ExtHash.lookupA_setA]
  · have hlen : ({ tb with contents := ExtHash.setA tb.contents k v' } :
        ExtHash.Bucket K V).contents.length = tb.contents.length :=
      ExtHash.length_setA_of_mem tb.contents k v' (by rw [hlk]; rfl)
    rw [ExtHash.totalCount_set_same_length hba hlen]
    exact htot'

/-- Witness for C10 at a concrete input: a one-bucket table of capacity 2
holding the pair `(3, 30)`, overwritten with value 99. -/
theorem C10_insert_overwrites_witness :
    ExtHash.find (fun n => n)
      ({ globalDepth := 0, bucketSizeLimit := 2, buckets := [⟨0, [(3, 99)]⟩],
         bucketDirectory := [0] } : ExtHash.HState Nat Nat) 3 = some (true, some 99) ∧
    ExtHash.totalCount
      ({ globalDepth := 0, bucketSizeLimit := 2, buckets := [⟨0, [(3, 99)]⟩],
         bucketDirectory := [0] } : ExtHash.HState Nat Nat) =
    ExtHash.totalCount
      ({ globalDepth := 0, bucketSizeLimit := 2, buckets := [⟨0, [(3, 30)]⟩],
         bucketDirectory := [0] } : ExtHash.HState Nat Nat) :=
  C10_insert_overwrites (fun n => n) 5
    { globalDepth := 0, bucketSizeLimit := 2, buckets := [⟨0, [(3, 30)]⟩],
      bucketDirectory := [0] }
    _ 3 30 99 (by decide) (by decide) (by decide)

/-- C3 counterexample: under strict 2PL, a COMMITTED transaction holding the
only (shared) lock entry of rid 0 calls Unlock; the call returns `false` and
leaves the lock table and the transaction unchanged, contradicting the
claimed removal and `true` return. -/
theorem C3_counterexample_strict_unlock :
    LockMgr.Unlock
      ⟨true, [(0, ⟨[⟨1, LockMgr.LockMode.shared, true⟩], 1⟩)]⟩
      ⟨1, LockMgr.TransactionState.committed, [0], []⟩ 0
      = some (false,
          ⟨true, [(0, ⟨[⟨1, LockMgr.LockMode.shared, true⟩], 1⟩)]⟩,
          ⟨1, LockMgr.TransactionState.committed, [0], []⟩) := by
  decide

/-- C3 (amended): under strict 2PL, `Unlock` returns `false` on every path
and never modifies the lock table or the transaction's lock sets; when the
transaction state is COMMITTED or ABORTED the transaction is returned
unchanged, and when it is GROWING or SHRINKING the state is set to ABORTED.
The removal-and-return-true path only exists in non-strict mode. -/
theorem C3_strict_unlock (lm : LockMgr.LockManager) (txn : LockMgr.Transaction)
    (rid : Nat) (hstrict : lm.strict2PL = true) :
    ((txn.state = LockMgr.TransactionState.committed ∨
      txn.state = LockMgr.TransactionState.aborted) →
      LockMgr.Unlock lm txn rid = some (false, lm, txn)) ∧
    ((txn.state = LockMgr.TransactionState.growing ∨
      txn.state = LockMgr.TransactionState.shrinking) →
      LockMgr.Unlock lm txn rid =
        some (false, lm, { txn with state := LockMgr.TransactionState.aborted })) := by
  constructor
  · rintro (hs | hs) <;> simp [LockMgr.Unlock, hstrict, hs]
  · rintro (hs | hs) <;> simp [LockMgr.Unlock, hstrict, hs]

/-- Witness for C3 at a concrete input: an ABORTED transaction under strict
2PL gets `false` back from Unlock with everything unchanged. -/
theorem C3_strict_unlock_witness :
    LockMgr.Unlock
      ⟨true, [(0, ⟨[⟨2, LockMgr.LockMode.exclusive, true⟩], 2⟩)]⟩
      ⟨2, LockMgr.TransactionState.aborted, [], [0]⟩ 0
      = some (false,
          ⟨true, [(0, ⟨[⟨2, LockMgr.LockMode.exclusive, true⟩], 2⟩)]⟩,
          ⟨2, LockMgr.TransactionState.aborted, [], [0]⟩) :=
  (C3_strict_unlock
    ⟨true, [(0, ⟨[⟨2, LockMgr.LockMode.exclusive, true⟩], 2⟩)]⟩
    ⟨2, LockMgr.TransactionState.aborted, [], [0]⟩ 0 rfl).1 (Or.inr rfl)

/-- C4: wait-die for a GROWING transaction.  On `LockShared` against a queue
whose head is exclusive, and on `LockExclusive` against any existing entry:
a younger requester (`txnId` greater than the entry's oldest holder id) is
aborted and the call returns `false` without touching the lock table; an
older requester is enqueued unheld and blocks; the continuation that runs
once the request reaches the queue head marks it held and returns `true`. -/
theorem C4_wait_die (lm : LockMgr.LockManager) (txn : LockMgr.Transaction)
    (rid : Nat) (ll : LockMgr.LockList)
    (hgrow : txn.state = LockMgr.TransactionState.growing)
    (hll : LockMgr.lookupT lm.lockTable rid = some ll) :
    (ll.CanAddShardLock = false →
      (txn.txnId > ll.oldest →
        LockMgr.LockShared lm txn rid =
          (LockMgr.LockResult.ret false, lm,
           { txn with state := LockMgr.TransactionState.aborted })) ∧
      (¬ txn.txnId > ll.oldest →
        LockMgr.LockShared lm txn rid =
          (LockMgr.LockResult.wait,
           { lm with lockTable := LockMgr.updateT lm.lockTable rid (ll.Add txn.txnId LockMgr.LockMode.shared false) },
           txn))) ∧
    ((txn.txnId > ll.oldest →
        LockMgr.LockExclusive lm txn rid =
          (LockMgr.LockResult.ret false, lm,
           { txn with state := LockMgr.TransactionState.aborted })) ∧
      (¬ txn.txnId > ll.oldest →
        LockMgr.LockExclusive lm txn rid =
          (LockMgr.LockResult.wait,
           { lm with lockTable := LockMgr.updateT lm.lockTable rid (ll.Add txn.txnId LockMgr.LockMode.exclusive false) },
           txn))) ∧
    (∀ lm2 ll2, LockMgr.lookupT lm2.lockTable rid = some ll2 →
      ll2.IsFirst txn.txnId = true →
      LockMgr.LockSharedResume lm2 txn rid =
        some (true,
          { lm2 with lockTable := LockMgr.updateT lm2.lockTable rid (ll2.Hold txn.txnId) },
          { txn with sharedLockSet := rid :: txn.sharedLockSet }) ∧
      LockMgr.LockExclusiveResume lm2 txn rid =
        some (true,
          { lm2 with lockTable := LockMgr.updateT lm2.lockTable rid (ll2.Hold txn.txnId) },
          { txn with exclusiveLockSet := rid :: txn.exclusiveLockSet })) := by
  have hvalid : LockMgr.IsValidToLock txn = (true, txn) := by
    unfold LockMgr.IsValidToLock
    rw [hgrow]
  refine ⟨?_, ⟨?_, ?_⟩, ?_⟩
  · intro hhead
    constructor
    · intro htid
      simp [LockMgr.LockShared, hvalid, hll, hhead, LockMgr.LockList.GetOldest, htid]
    · intro htid
      simp [LockMgr.LockShared, hvalid, hll, hhead, LockMgr.LockList.GetOldest, htid]
  · intro htid
    simp [LockMgr.LockExclusive, hvalid, hll, LockMgr.LockList.GetOldest, htid]
  · intro htid
    simp [LockMgr.LockExclusive, hvalid, hll, LockMgr.LockList.GetOldest, htid]
  · intro lm2 ll2 hll2 hfirst
    constructor
    · simp [LockMgr.LockSharedResume, hll2, hfirst]
    · simp [LockMgr.LockExclusiveResume, hll2, hfirst]

namespace BufPool

theorem getD_set_self (l : List Page) (f : Nat) (p d : Page) (hf : f < l.length) :
    (l.set f p).getD f d = p := by
  rw [List.getD_eq_getElem?_getD, List.getElem?_set_eq_of_lt _ hf]
  rfl

theorem getD_set_ne (l : List Page) (f g : Nat) (p d : Page) (hne : f ≠ g) :
    (l.set f p).getD g d = l.getD g d := by
  rw [List.getD_eq_getElem?_getD, List.getElem?_set_ne hne, ← List.getD_eq_getElem?_getD]

theorem lookupP_mem {tbl : List (Int × Nat)} {pid : Int} {f : Nat}
    (hl : lookupP tbl pid = some f) : (pid, f) ∈ tbl := by
  unfold lookupP at hl
  cases hfind : tbl.find? (fun pr => pr.1 = pid) with
  | none => rw [hfind] at hl; exact Option.noConfusion hl
  | some pr =>
    rw [hfind] at hl
    have hmem := List.mem_of_find?_eq_some hfind
    have hkey := List.find?_some hfind
    simp only [decide_eq_true_eq] at hkey
    simp only [Option.map_some', Option.some.injEq] at hl
    have : pr = (pid, f) := by
      obtain ⟨a, b⟩ := pr
      simp_all
    rwa [this] at hmem

theorem lookupP_none {tbl : List (Int × Nat)} {pid : Int}
    (hl : lookupP tbl pid = none) : ∀ pr ∈ tbl, pr.1 ≠ pid := by
  unfold lookupP at hl
  cases hfind : tbl.find? (fun pr => pr.1 = pid) with
  | some pr => rw [hfind] at hl; exact Option.noConfusion hl
  | none =>
    intro pr hmem
    have := List.find?_eq_none.mp hfind pr hmem
    simpa using this

theorem insertP_absent {tbl : List (Int × Nat)} {pid : Int} (f : Nat)
    (hl : lookupP tbl pid = none) : insertP tbl pid f = (pid, f) :: tbl := by
  simp [insertP, hl]

theorem mem_eraseP {tbl : List (Int × Nat)} {pid : Int} {pr : Int × Nat} :
    pr ∈ eraseP tbl pid ↔ pr ∈ tbl ∧ pr.1 ≠ pid := by
  simp [eraseP, List.mem_filter]

theorem nodup_map_eraseP {tbl : List (Int × Nat)} {pid : Int}
    (g : Int × Nat → α) (hn : (tbl.map g).Nodup) : ((eraseP tbl pid).map g).Nodup :=
  List.Nodup.sublist (List.Sublist.map g (List.filter_sublist tbl)) hn

theorem lruVictim_eq {l : List Nat} {x : Nat} {rest : List Nat}
    (h : lruVictim l = some (x, rest)) : l = rest ++ [x] := by
  unfold lruVictim at h
  cases hrev : l.reverse with
  | nil => rw [hrev] at h; exact Option.noConfusion h
  | cons y ys =>
    rw [hrev] at h
    simp only [Option.some.injEq, Prod.mk.injEq] at h
    obtain ⟨hx, hrest⟩ := h
    have : l = (y :: ys).reverse := by rw [← hrev, List.reverse_reverse]
    rw [this, List.reverse_cons, hx, hrest]

theorem mem_lruInsert {l : List Nat} {v x : Nat} :
    x ∈ lruInsert l v ↔ x = v ∨ (x ∈ l ∧ x ≠ v) := by
  simp [lruInsert, List.mem_filter]

theorem nodup_lruInsert {l : List Nat} (v : Nat) (hn : l.Nodup) :
    (lruInsert l v).Nodup := by
  refine List.Nodup.cons ?_ (List.Nodup.filter _ hn)
  intro hmem
  simp [List.mem_filter] at hmem

theorem lruErase_snd_subset {l : List Nat} {v x : Nat}
    (hx : x ∈ (lruErase l v).2) : x ∈ l := by
  unfold lruErase at hx
  by_cases hv : v ∈ l
  · rw [if_pos hv] at hx
    exact (List.mem_filter.mp hx).1
  · rwa [if_neg hv] at hx

theorem not_mem_lruErase {l : List Nat} {v : Nat} : v ∉ (lruErase l v).2 := by
  unfold lruErase
  by_cases hv : v ∈ l
  · rw [if_pos hv]
    intro hmem
    simp [List.mem_filter] at hmem
  · rwa [if_neg hv]

theorem mem_lruErase_of_ne {l : List Nat} {v x : Nat} (hne : x ≠ v) :
    x ∈ (lruErase l v).2 ↔ x ∈ l := by
  unfold lruErase
  by_cases hv : v ∈ l
  · rw [if_pos hv]
    simp [List.mem_filter, hne]
  · rw [if_neg hv]

theorem nodup_lruErase {l : List Nat} (v : Nat) (hn : l.Nodup) :
    (lruErase l v).2.Nodup := by
  unfold lruErase
  by_cases hv : v ∈ l
  · rw [if_pos hv]
    exact List.Nodup.filter _ hn
  · rwa [if_neg hv]

theorem lookupP_eq_none {tbl : List (Int × Nat)} {pid : Int}
    (h : ∀ pr ∈ tbl, pr.1 ≠ pid) : lookupP tbl pid = none := by
  unfold lookupP
  rw [List.find?_eq_none.mpr]
  · rfl
  · intro pr hmem
    simpa using h pr hmem

theorem mem_tableFrames {s : BPState} {g : Nat} :
    g ∈ tableFrames s ↔ ∃ pr ∈ s.pageTable, pr.2 = g := by
  simp [tableFrames, List.mem_map]

theorem finishFetch_inv {s : BPState} {f : Nat} {pid : Int} {tr : List DiskEvent}
    {out : Option Nat × BPState × List DiskEvent}
    (ho : orphanInv s f) (hnot : ∀ pr ∈ s.pageTable, pr.1 ≠ pid)
    (hff : finishFetch s f pid tr = some out) : fullInv out.2.1 := by
  obtain ⟨hk, hv, htab, hfnd, hfree, hrnd, hrt, hft, hpin, hcov, hna,
    hflt, hfnt, hfnf, hfnr, hfp0⟩ := ho
  unfold finishFetch at hff
  by_cases hpid : 0 ≤ pid ∧ pid < s.nextAlloc
  case neg => rw [if_neg hpid] at hff; exact Option.noConfusion hff
  rw [if_pos hpid, insertP_absent f (lookupP_eq_none hnot)] at hff
  simp only [Option.some.injEq] at hff
  subst hff
  dsimp only
  refine ⟨?_, ?_, ?_, hfnd, ?_, hrnd, ?_, ?_, ?_, ?_, hna⟩
  · simp only [List.map_cons]
    refine List.Nodup.cons ?_ hk
    intro hmem
    rw [List.mem_map] at hmem
    obtain ⟨pr, hpr, hfst⟩ := hmem
    exact hnot pr hpr hfst
  · simp only [List.map_cons]
    refine List.Nodup.cons ?_ hv
    intro hmem
    exact hfnt hmem
  · intro pr hpr
    rcases List.mem_cons.mp hpr with heq | hpr'
    · subst heq
      refine ⟨by simpa using hflt, ?_, hpid.1, hpid.2⟩
      simp only [frameAt]
      rw [getD_set_self _ _ _ _ hflt]
    · obtain ⟨h1, h2, h3, h4⟩ := htab pr hpr'
      have hne : f ≠ pr.2 := fun hh => hfnt (mem_tableFrames.mpr ⟨pr, hpr', hh.symm⟩)
      refine ⟨by simpa using h1, ?_, h3, h4⟩
      simp only [frameAt]
      rw [getD_set_ne _ _ _ _ _ hne]
      exact h2
  · intro g hg
    obtain ⟨h1, h2, h3, h4⟩ := hfree g hg
    have hne : f ≠ g := fun hh => hfnf (hh ▸ hg)
    simp only [frameAt]
    rw [getD_set_ne _ _ _ _ _ hne]
    exact ⟨by simpa using h1, h2, h3, h4⟩
  · intro g hg
    exact List.mem_cons.mpr (Or.inr (hrt g hg))
  · intro g hg hmem
    rcases List.mem_cons.mp hmem with heq | hmem'
    · subst heq
      exact hfnf hg
    · exact hft g hg hmem'
  · intro pr hpr
    rcases List.mem_cons.mp hpr with heq | hpr'
    · subst heq
      simp only [frameAt]
      rw [getD_set_self _ _ _ _ hflt]
      simp [hfnr]
    · have hne : f ≠ pr.2 := fun hh => hfnt (mem_tableFrames.mpr ⟨pr, hpr', hh.symm⟩)
      simp only [frameAt]
      rw [getD_set_ne _ _ _ _ _ hne]
      exact hpin pr hpr'
  · intro g hg
    simp only [List.length_set] at hg
    rcases hcov g hg with heq | hmem | hmem
    · subst heq
      exact Or.inr (List.mem_cons.mpr (Or.inl rfl))
    · exact Or.inl hmem
    · exact Or.inr (List.mem_cons.mpr (Or.inr hmem))

theorem finishNew_inv {s : BPState} {f : Nat} {tr : List DiskEvent}
    {out : Option (Int × Nat) × BPState × List DiskEvent}
    (ho : orphanInv s f)
    (hfn : finishNew s f tr = some out) : fullInv out.2.1 := by
  obtain ⟨hk, hv, htab, hfnd, hfree, hrnd, hrt, hft, hpin, hcov, hna,
    hflt, hfnt, hfnf, hfnr, hfp0⟩ := ho
  have hnot : ∀ pr ∈ s.pageTable, pr.1 ≠ s.nextAlloc := by
    intro pr hpr hcontra
    have := (htab pr hpr).2.2.2
    omega
  unfold finishNew at hfn
  rw [insertP_absent f (lookupP_eq_none hnot)] at hfn
  simp only [Option.some.injEq] at hfn
  subst hfn
  dsimp only
  refine ⟨?_, ?_, ?_, hfnd, ?_, hrnd, ?_, ?_, ?_, ?_, by dsimp only; omega⟩
  · simp only [List.map_cons]
    refine List.Nodup.cons ?_ hk
    intro hmem
    rw [List.mem_map] at hmem
    obtain ⟨pr, hpr, hfst⟩ := hmem
    exact hnot pr hpr hfst
  · simp only [List.map_cons]
    refine List.Nodup.cons ?_ hv
    intro hmem
    exact hfnt hmem
  · intro pr hpr
    rcases List.mem_cons.mp hpr with heq | hpr'
    · subst heq
      refine ⟨by simpa using hflt, ?_, hna, by dsimp only; omega⟩
      simp only [frameAt]
      rw [getD_set_self _ _ _ _ hflt]
    · obtain ⟨h1, h2, h3, h4⟩ := htab pr hpr'
      have hne : f ≠ pr.2 := fun hh => hfnt (mem_tableFrames.mpr ⟨pr, hpr', hh.symm⟩)
      refine ⟨by simpa using h1, ?_, h3, by dsimp only; omega⟩
      simp only [frameAt]
      rw [getD_set_ne _ _ _ _ _ hne]
      exact h2
  · intro g hg
    obtain ⟨h1, h2, h3, h4⟩ := hfree g hg
    have hne : f ≠ g := fun hh => hfnf (hh ▸ hg)
    simp only [frameAt]
    rw [getD_set_ne _ _ _ _ _ hne]
    exact ⟨by simpa using h1, h2, h3, h4⟩
  · intro g hg
    exact List.mem_cons.mpr (Or.inr (hrt g hg))
  · intro g hg hmem
    rcases List.mem_cons.mp hmem with heq | hmem'
    · subst heq
      exact hfnf hg
    · exact hft g hg hmem'
  · intro pr hpr
    rcases List.mem_cons.mp hpr with heq | hpr'
    · subst heq
      simp only [frameAt]
      rw [getD_set_self _ _ _ _ hflt]
      simp [hfnr]
    · have hne : f ≠ pr.2 := fun hh => hfnt (mem_tableFrames.mpr ⟨pr, hpr', hh.symm⟩)
      simp only [frameAt]
      rw [getD_set_ne _ _ _ _ _ hne]
      exact hpin pr hpr'
  · intro g hg
    simp only [List.length_set] at hg
    rcases hcov g hg with heq | hmem | hmem
    · subst heq
      exact Or.inr (List.mem_cons.mpr (Or.inl rfl))
    · exact Or.inl hmem
    · exact Or.inr (List.mem_cons.mpr (Or.inr hmem))

theorem free_acquire {s : BPState} {f : Nat} {rest : List Nat}
    (hw : fullInv s) (hfl : s.freeList = f :: rest) :
    orphanInv { s with freeList := rest } f := by
  obtain ⟨hk, hv, htab, hfnd, hfree, hrnd, hrt, hft, hpin, hcov, hna⟩ := hw
  have hfmem : f ∈ s.freeList := by rw [hfl]; exact List.mem_cons_self _ _
  obtain ⟨hf1, hf2, hf3, hf4⟩ := hfree f hfmem
  rw [hfl] at hfnd
  have hrest : rest.Nodup := (List.nodup_cons.mp hfnd).2
  have hfnrest : f ∉ rest := (List.nodup_cons.mp hfnd).1
  refine ⟨hk, hv, htab, hrest, ?_, hrnd, hrt, ?_, hpin, ?_, hna, hf1,
    hft f hfmem, hfnrest, ?_, hf3⟩
  · intro g hg
    exact hfree g (by rw [hfl]; exact List.mem_cons.mpr (Or.inr hg))
  · intro g hg
    exact hft g (by rw [hfl]; exact List.mem_cons.mpr (Or.inr hg))
  · intro g hg
    rcases hcov g hg with hmem | hmem
    · rw [hfl] at hmem
      rcases List.mem_cons.mp hmem with heq | hmem'
      · exact Or.inl heq
      · exact Or.inr (Or.inl hmem')
    · exact Or.inr (Or.inr hmem)
  · intro hmem
    exact hft f hfmem (hrt f hmem)

theorem victim_orphan {s : BPState} {f : Nat} {rep : List Nat}
    (pg' : List Page) (ls' : LogState)
    (hw : fullInv s) (hvic : lruVictim s.replacer = some (f, rep))
    (hlen : pg'.length = s.pages.length)
    (hsame : ∀ g, g ≠ f → pg'.getD g ⟨-1, 0, false, 0⟩ = s.pages.getD g ⟨-1, 0, false, 0⟩)
    (hfpin : (pg'.getD f ⟨-1, 0, false, 0⟩).pinCount = (frameAt s f).pinCount) :
    orphanInv ({ s with replacer := rep, pages := pg', logState := ls',
                        pageTable := eraseP s.pageTable ((frameAt s f).pageId) }) f := by
  obtain ⟨hk, hv, htab, hfnd, hfree, hrnd, hrt, hft, hpin, hcov, hna⟩ := hw
  have hveq : s.replacer = rep ++ [f] := lruVictim_eq hvic
  have hfrep : f ∈ s.replacer := by rw [hveq]; simp
  have hftab : f ∈ tableFrames s := hrt f hfrep
  obtain ⟨pr0, hpr0, hpr0v⟩ := mem_tableFrames.mp hftab
  have hp0 : pr0.1 = (frameAt s f).pageId := by
    rw [← (htab pr0 hpr0).2.1, hpr0v]
  have hpin0 : (frameAt s f).pinCount = 0 := by
    have hx := hpin pr0 hpr0
    rw [hpr0v] at hx
    exact hx.mpr hfrep
  rw [hveq] at hrnd
  have hrepnd : rep.Nodup := (List.nodup_append.mp hrnd).1
  have hfnrep : f ∉ rep := by
    intro hmem
    exact ((List.nodup_append.mp hrnd).2.2 hmem) (by simp)
  have hvinj := List.inj_on_of_nodup_map hv
  have hkinj := List.inj_on_of_nodup_map hk
  have hvalf : ∀ pr ∈ s.pageTable, pr.2 = f → pr = pr0 := by
    intro pr hpr hpv
    exact hvinj hpr hpr0 (by rw [hpv, hpr0v])
  have hkeyp0 : ∀ pr ∈ s.pageTable, pr.1 = (frameAt s f).pageId → pr = pr0 := by
    intro pr hpr hpk
    exact hkinj hpr hpr0 (by rw [hpk, hp0])
  have hfnotval : ∀ pr ∈ eraseP s.pageTable ((frameAt s f).pageId), pr.2 ≠ f := by
    intro pr hpr hpv
    obtain ⟨hprt, hprk⟩ := mem_eraseP.mp hpr
    have heq := hvalf pr hprt hpv
    rw [heq] at hprk
    exact hprk hp0
  have hmemE : ∀ pr ∈ s.pageTable, pr.2 ≠ f →
      pr ∈ eraseP s.pageTable ((frameAt s f).pageId) := by
    intro pr hpr hpv
    refine mem_eraseP.mpr ⟨hpr, ?_⟩
    intro hpk
    exact hpv (by rw [hkeyp0 pr hpr hpk, hpr0v])
  have hflt : f < s.pages.length := by
    have := (htab pr0 hpr0).1
    rwa [hpr0v] at this
  refine ⟨?_, ?_, ?_, hfnd, ?_, hrepnd, ?_, ?_, ?_, ?_, hna, ?_, ?_, ?_, hfnrep, ?_⟩
  · exact nodup_map_eraseP _ hk
  · exact nodup_map_eraseP _ hv
  · intro pr hpr
    have hprt := (mem_eraseP.mp hpr).1
    obtain ⟨h1, h2, h3, h4⟩ := htab pr hprt
    have hne : pr.2 ≠ f := hfnotval pr hpr
    refine ⟨by simpa [hlen] using h1, ?_, h3, h4⟩
    simp only [frameAt]
    rw [hsame _ hne]
    exact h2
  · intro g hg
    obtain ⟨h1, h2, h3, h4⟩ := hfree g hg
    have hne : g ≠ f := by
      intro hh
      exact hft g hg (hh ▸ hftab)
    simp only [frameAt]
    rw [hsame _ hne]
    exact ⟨by simpa [hlen] using h1, h2, h3, h4⟩
  · intro g hg
    have hgs : g ∈ s.replacer := by rw [hveq]; exact List.mem_append.mpr (Or.inl hg)
    have hgt := hrt g hgs
    obtain ⟨pr, hpr, hpv⟩ := mem_tableFrames.mp hgt
    have hne : g ≠ f := fun hh => hfnrep (hh ▸ hg)
    exact mem_tableFrames.mpr ⟨pr, hmemE pr hpr (by rw [hpv]; exact hne), hpv⟩
  · intro g hg hmem
    obtain ⟨pr, hpr, hpv⟩ := mem_tableFrames.mp hmem
    exact hft g hg (mem_tableFrames.mpr ⟨pr, (mem_eraseP.mp hpr).1, hpv⟩)
  · intro pr hpr
    have hprt := (mem_eraseP.mp hpr).1
    have hne : pr.2 ≠ f := hfnotval pr hpr
    have hx := hpin pr hprt
    have hrepiff : pr.2 ∈ rep ↔ pr.2 ∈ s.replacer := by
      rw [hveq]
      constructor
      · intro hh
        exact List.mem_append.mpr (Or.inl hh)
      · intro hh
        rcases List.mem_append.mp hh with hh' | hh'
        · exact hh'
        · simp at hh'
          exact absurd hh' hne
    simp only [frameAt]
    rw [hsame _ hne, hrepiff]
    exact hx
  · intro g hg
    rw [hlen] at hg
    rcases hcov g hg with hmem | hmem
    · exact Or.inr (Or.inl hmem)
    · obtain ⟨pr, hpr, hpv⟩ := mem_tableFrames.mp hmem
      by_cases hgf : g = f
      · exact Or.inl hgf
      · refine Or.inr (Or.inr (mem_tableFrames.mpr ⟨pr, hmemE pr hpr ?_, hpv⟩))
        rw [hpv]
        exact hgf
  · rwa [hlen]
  · intro hmem
    obtain ⟨pr, hpr, hpv⟩ := mem_tableFrames.mp hmem
    exact hfnotval pr hpr hpv
  · intro hmem
    exact hft f hmem hftab
  · simp only [frameAt]
    rw [hfpin]
    exact hpin0

theorem fullInv_fetch {s : BPState} {pid : Int}
    {out : Option Nat × BPState × List DiskEvent}
    (hw : fullInv s) (hf : FetchPage s pid = some out) : fullInv out.2.1 := by
  unfold FetchPage at hf
  by_cases hm1 : pid = -1
  · rw [if_pos hm1] at hf
    simp only [Option.some.injEq] at hf
    subst hf
    exact hw
  rw [if_neg hm1] at hf
  cases hlook : lookupP s.pageTable pid with
  | some f =>
    simp only [hlook, Option.some.injEq] at hf
    subst hf
    dsimp only
    obtain ⟨hk, hv, htab, hfnd, hfree, hrnd, hrt, hft, hpin, hcov, hna⟩ := hw
    have hmem := lookupP_mem hlook
    have hflt : f < s.pages.length := (htab (pid, f) hmem).1
    refine ⟨hk, hv, ?_, hfnd, ?_, nodup_lruErase f hrnd, ?_, hft, ?_, ?_, hna⟩
    · intro pr hpr
      obtain ⟨h1, h2, h3, h4⟩ := htab pr hpr
      by_cases hpf : pr.2 = f
      · refine ⟨by simpa using h1, ?_, h3, h4⟩
        rw [hpf]
        simp only [frameAt]
        rw [getD_set_self _ _ _ _ hflt]
        rw [hpf] at h2
        exact h2
      · refine ⟨by simpa using h1, ?_, h3, h4⟩
        simp only [frameAt]
        rw [getD_set_ne _ _ _ _ _ (fun hh => hpf hh.symm)]
        exact h2
    · intro g hg
      obtain ⟨h1, h2, h3, h4⟩ := hfree g hg
      have hne : f ≠ g := by
        intro hh
        exact hft g hg (hh ▸ mem_tableFrames.mpr ⟨(pid, f), hmem, rfl⟩)
      simp only [frameAt]
      rw [getD_set_ne _ _ _ _ _ hne]
      exact ⟨by simpa using h1, h2, h3, h4⟩
    · intro g hg
      exact hrt g (lruErase_snd_subset hg)
    · intro pr hpr
      by_cases hpf : pr.2 = f
      · rw [hpf]
        simp only [frameAt]
        rw [getD_set_self _ _ _ _ hflt]
        constructor
        · intro h0
          exact absurd h0 (by dsimp only; omega)
        · intro hmem'
          exact absurd hmem' not_mem_lruErase
      · simp only [frameAt]
        rw [getD_set_ne _ _ _ _ _ (fun hh => hpf hh.symm),
          mem_lruErase_of_ne (fun hh => hpf hh)]
        exact hpin pr hpr
    · intro g hg
      simp only [List.length_set] at hg
      exact hcov g hg
  | none =>
    simp only [hlook] at hf
    cases hfl : s.freeList with
    | cons f rest =>
      simp only [hfl] at hf
      by_cases hgd : (frameAt s f).pinCount = 0 ∧ (frameAt s f).pageId = -1 ∧
          (frameAt s f).isDirty = false
      case neg => rw [if_neg hgd] at hf; exact Option.noConfusion hf
      rw [if_pos hgd] at hf
      exact finishFetch_inv (free_acquire hw hfl) (lookupP_none hlook) hf
    | nil =>
      simp only [hfl] at hf
      rw [← hfl] at hf
      cases hvic : lruVictim s.replacer with
      | none =>
        simp only [hvic, Option.some.injEq] at hf
        subst hf
        exact hw
      | some pr =>
        obtain ⟨f, rep⟩ := pr
        simp only [hvic] at hf
        by_cases hp0 : (frameAt s f).pinCount = 0
        case neg => rw [if_neg hp0] at hf; exact Option.noConfusion hf
        rw [if_pos hp0] at hf
        have hfrep : f ∈ s.replacer := by
          rw [lruVictim_eq hvic]; simp
        obtain ⟨pr0, hpr0, hpv0⟩ := mem_tableFrames.mp (hw.2.2.2.2.2.2.1 f hfrep)
        have hflt : f < s.pages.length := by
          have := (hw.2.2.1 pr0 hpr0).1
          rwa [hpv0] at this
        by_cases hd : (frameAt s f).isDirty
        · rw [if_pos hd] at hf
          exact finishFetch_inv
            (victim_orphan (s.pages.set f { frameAt s f with isDirty := false })
              s.logState hw hvic (by simp)
              (fun g hgne => getD_set_ne _ _ _ _ _ (fun hh => hgne hh.symm))
              (by rw [getD_set_self _ _ _ _ hflt]))
            (fun pr hpr => lookupP_none hlook pr (mem_eraseP.mp hpr).1) hf
        · rw [if_neg hd] at hf
          exact finishFetch_inv
            (victim_orphan s.pages s.logState hw hvic rfl (fun g _ => rfl) rfl)
            (fun pr hpr => lookupP_none hlook pr (mem_eraseP.mp hpr).1) hf

theorem fullInv_unpin_core {s : BPState} {f : Nat} {pid : Int} (p2 : Page)
    (hw : fullInv s) (hmem : (pid, f) ∈ s.pageTable)
    (hid : p2.pageId = (frameAt s f).pageId)
    (hpc : p2.pinCount = (frameAt s f).pinCount - 1)
    (hp0 : (frameAt s f).pinCount ≠ 0) :
    fullInv { s with pages := s.pages.set f p2,
                     replacer := if (frameAt s f).pinCount - 1 = 0
                                 then lruInsert s.replacer f else s.replacer } := by
  obtain ⟨hk, hv, htab, hfnd, hfree, hrnd, hrt, hft, hpin, hcov, hna⟩ := hw
  have hflt : f < s.pages.length := (htab (pid, f) hmem).1
  have hftf : f ∈ tableFrames s := mem_tableFrames.mpr ⟨(pid, f), hmem, rfl⟩
  have hfnr : f ∉ s.replacer := by
    intro hr
    exact hp0 ((hpin (pid, f) hmem).mpr hr)
  have htab' : ∀ pr ∈ s.pageTable, pr.2 < (s.pages.set f p2).length ∧
      (frameAt { s with pages := s.pages.set f p2,
                        replacer := if (frameAt s f).pinCount - 1 = 0
                                    then lruInsert s.replacer f else s.replacer } pr.2).pageId
        = pr.1 ∧ 0 ≤ pr.1 ∧ pr.1 < s.nextAlloc := by
    intro pr hpr
    obtain ⟨h1, h2, h3, h4⟩ := htab pr hpr
    by_cases hpf : pr.2 = f
    · refine ⟨by simpa using h1, ?_, h3, h4⟩
      rw [hpf]
      simp only [frameAt]
      rw [getD_set_self _ _ _ _ hflt, hid]
      rw [hpf] at h2
      exact h2
    · refine ⟨by simpa using h1, ?_, h3, h4⟩
      simp only [frameAt]
      rw [getD_set_ne _ _ _ _ _ (fun hh => hpf hh.symm)]
      exact h2
  have hfree' : ∀ g ∈ s.freeList, g < (s.pages.set f p2).length ∧
      ((s.pages.set f p2).getD g ⟨-1, 0, false, 0⟩).pageId = -1 ∧
      ((s.pages.set f p2).getD g ⟨-1, 0, false, 0⟩).pinCount = 0 ∧
      ((s.pages.set f p2).getD g ⟨-1, 0, false, 0⟩).isDirty = false := by
    intro g hg
    obtain ⟨h1, h2, h3, h4⟩ := hfree g hg
    have hne : f ≠ g := fun hh => hft g hg (hh ▸ hftf)
    rw [getD_set_ne _ _ _ _ _ hne]
    exact ⟨by simpa using h1, h2, h3, h4⟩
  by_cases hnp : (frameAt s f).pinCount - 1 = 0
  · rw [if_pos hnp]
    rw [if_pos hnp] at htab'
    refine ⟨hk, hv, htab', hfnd, hfree', nodup_lruInsert f hrnd, ?_, hft, ?_, ?_, hna⟩
    · intro g hg
      rcases mem_lruInsert.mp hg with heq | ⟨hmem', _⟩
      · rw [heq]; exact hftf
      · exact hrt g hmem'
    · intro pr hpr
      by_cases hpf : pr.2 = f
      · rw [hpf]
        simp only [frameAt]
        rw [getD_set_self _ _ _ _ hflt]
        constructor
        · intro _
          exact mem_lruInsert.mpr (Or.inl rfl)
        · intro _
          rw [hpc]
          exact hnp
      · simp only [frameAt]
        rw [getD_set_ne _ _ _ _ _ (fun hh => hpf hh.symm)]
        rw [show (pr.2 ∈ lruInsert s.replacer f) = (pr.2 = f ∨ (pr.2 ∈ s.replacer ∧ pr.2 ≠ f)) from propext mem_lruInsert]
        constructor
        · intro h0
          exact Or.inr ⟨(hpin pr hpr).mp h0, hpf⟩
        · intro hor
          rcases hor with heq | ⟨hmem', _⟩
          · exact absurd heq hpf
          · exact (hpin pr hpr).mpr hmem'
    · intro g hg
      simp only [List.length_set] at hg
      exact hcov g hg
  · rw [if_neg hnp]
    rw [if_neg hnp] at htab'
    refine ⟨hk, hv, htab', hfnd, hfree', hrnd, hrt, hft, ?_, ?_, hna⟩
    · intro pr hpr
      by_cases hpf : pr.2 = f
      · rw [hpf]
        simp only [frameAt]
        rw [getD_set_self _ _ _ _ hflt]
        constructor
        · intro h0
          rw [hpc] at h0
          exact absurd h0 hnp
        · intro hr
          exact absurd hr hfnr
      · simp only [frameAt]
        rw [getD_set_ne _ _ _ _ _ (fun hh => hpf hh.symm)]
        exact hpin pr hpr
    · intro g hg
      simp only [List.length_set] at hg
      exact hcov g hg

theorem fullInv_unpin {s : BPState} {pid : Int} {d : Bool} {out : Bool × BPState}
    (hw : fullInv s) (hf : UnpinPage s pid d = some out) : fullInv out.2 := by
  unfold UnpinPage at hf
  cases hlook : lookupP s.pageTable pid with
  | none =>
    simp only [hlook, Option.some.injEq] at hf
    subst hf
    exact hw
  | some f =>
    simp only [hlook] at hf
    by_cases hp0 : (frameAt s f).pinCount = 0
    case pos => rw [if_pos hp0] at hf; exact Option.noConfusion hf
    rw [if_neg hp0] at hf
    simp only [Option.some.injEq] at hf
    subst hf
    dsimp only
    exact fullInv_unpin_core _ hw (lookupP_mem hlook)
      (by cases d <;> rfl) (by cases d <;> rfl) hp0

theorem fullInv_flush {s : BPState} {pid : Int}
    {out : Bool × BPState × List DiskEvent}
    (hw : fullInv s) (hf : FlushPage s pid = some out) : fullInv out.2.1 := by
  unfold FlushPage at hf
  cases hlook : lookupP s.pageTable pid with
  | none =>
    simp only [hlook, Option.some.injEq] at hf
    subst hf
    exact hw
  | some f =>
    simp only [hlook, Option.some.injEq] at hf
    subst hf
    dsimp only
    obtain ⟨hk, hv, htab, hfnd, hfree, hrnd, hrt, hft, hpin, hcov, hna⟩ := hw
    have hmem := lookupP_mem hlook
    have hflt : f < s.pages.length := (htab (pid, f) hmem).1
    have hftf : f ∈ tableFrames s := mem_tableFrames.mpr ⟨(pid, f), hmem, rfl⟩
    refine ⟨hk, hv, ?_, hfnd, ?_, hrnd, hrt, hft, ?_, ?_, hna⟩
    · intro pr hpr
      obtain ⟨h1, h2, h3, h4⟩ := htab pr hpr
      by_cases hpf : pr.2 = f
      · refine ⟨by simpa using h1, ?_, h3, h4⟩
        rw [hpf]
        simp only [frameAt]
        rw [getD_set_self _ _ _ _ hflt]
        rw [hpf] at h2
        exact h2
      · refine ⟨by simpa using h1, ?_, h3, h4⟩
        simp only [frameAt]
        rw [getD_set_ne _ _ _ _ _ (fun hh => hpf hh.symm)]
        exact h2
    · intro g hg
      obtain ⟨h1, h2, h3, h4⟩ := hfree g hg
      have hne : f ≠ g := fun hh => hft g hg (hh ▸ hftf)
      simp only [frameAt]
      rw [getD_set_ne _ _ _ _ _ hne]
      exact ⟨by simpa using h1, h2, h3, h4⟩
    · intro pr hpr
      by_cases hpf : pr.2 = f
      · rw [hpf]
        simp only [frameAt]
        rw [getD_set_self _ _ _ _ hflt]
        have hx := hpin pr hpr
        rw [hpf] at hx
        exact hx
      · simp only [frameAt]
        rw [getD_set_ne _ _ _ _ _ (fun hh => hpf hh.symm)]
        exact hpin pr hpr
    · intro g hg
      simp only [List.length_set] at hg
      exact hcov g hg

theorem fullInv_delete {s : BPState} {pid : Int}
    {out : Bool × BPState × List DiskEvent}
    (hw : fullInv s) (hf : DeletePage s pid = some out) : fullInv out.2.1 := by
  unfold DeletePage at hf
  cases hlook : lookupP s.pageTable pid with
  | none =>
    simp only [hlook, Option.some.injEq] at hf
    subst hf
    exact hw
  | some f =>
    simp only [hlook] at hf
    by_cases hnz : (frameAt s f).pinCount ≠ 0
    · rw [if_pos hnz] at hf
      simp only [Option.some.injEq] at hf
      subst hf
      exact hw
    rw [if_neg hnz] at hf
    have hp0 : (frameAt s f).pinCount = 0 := by omega
    cases hle : lruErase s.replacer f with
    | mk b rep =>
      cases b
      · simp only [hle] at hf; exact Option.noConfusion hf
      · simp only [hle, Option.some.injEq] at hf
        subst hf
        dsimp only
        obtain ⟨hk, hv, htab, hfnd, hfree, hrnd, hrt, hft, hpin, hcov, hna⟩ := hw
        have hrep2 : (lruErase s.replacer f).2 = rep := by rw [hle]
        have hmem := lookupP_mem hlook
        have hflt : f < s.pages.length := (htab (pid, f) hmem).1
        have hftf : f ∈ tableFrames s := mem_tableFrames.mpr ⟨(pid, f), hmem, rfl⟩
        have hfnfree : f ∉ s.freeList := fun hh => hft f hh hftf
        have hvinj := List.inj_on_of_nodup_map hv
        have hkinj := List.inj_on_of_nodup_map hk
        have hvalf : ∀ pr ∈ s.pageTable, pr.2 = f → pr = (pid, f) := by
          intro pr hpr hpv
          exact hvinj hpr hmem hpv
        have hkeyf : ∀ pr ∈ s.pageTable, pr.1 = pid → pr = (pid, f) := by
          intro pr hpr hpk
          exact hkinj hpr hmem hpk
        have hEval : ∀ pr ∈ eraseP s.pageTable pid, pr.2 ≠ f := by
          intro pr hpr hpv
          obtain ⟨hprt, hprk⟩ := mem_eraseP.mp hpr
          exact hprk (by rw [hvalf pr hprt hpv])
        refine ⟨nodup_map_eraseP _ hk, nodup_map_eraseP _ hv, ?_, ?_, ?_,
          hrep2 ▸ nodup_lruErase f hrnd, ?_, ?_, ?_, ?_, hna⟩
        · intro pr hpr
          obtain ⟨h1, h2, h3, h4⟩ := htab pr (mem_eraseP.mp hpr).1
          have hne : f ≠ pr.2 := fun hh => hEval pr hpr hh.symm
          refine ⟨by simpa using h1, ?_, h3, h4⟩
          simp only [frameAt]
          rw [getD_set_ne _ _ _ _ _ hne]
          exact h2
        · rw [List.nodup_append]
          refine ⟨hfnd, List.nodup_singleton f, ?_⟩
          intro a ha hb
          rw [List.mem_singleton] at hb
          exact hfnfree (hb ▸ ha)
        · intro g hg
          rcases List.mem_append.mp hg with hgf | hgf
          · obtain ⟨h1, h2, h3, h4⟩ := hfree g hgf
            have hne : f ≠ g := fun hh => hfnfree (hh ▸ hgf)
            simp only [frameAt]
            rw [getD_set_ne _ _ _ _ _ hne]
            exact ⟨by simpa using h1, h2, h3, h4⟩
          · rw [List.mem_singleton] at hgf
            subst hgf
            simp only [frameAt]
            rw [getD_set_self _ _ _ _ hflt]
            exact ⟨by simpa using hflt, rfl, rfl, rfl⟩
        · intro g hg
          rw [← hrep2] at hg
          have hne : g ≠ f := fun hh => not_mem_lruErase (hh ▸ hg)
          have hgs : g ∈ s.replacer := (mem_lruErase_of_ne hne).mp hg
          obtain ⟨pr, hpr, hpv⟩ := mem_tableFrames.mp (hrt g hgs)
          refine mem_tableFrames.mpr ⟨pr, mem_eraseP.mpr ⟨hpr, ?_⟩, hpv⟩
          intro hpk
          exact hne (by rw [← hpv, hkeyf pr hpr hpk])
        · intro g hg hmem'
          obtain ⟨pr, hpr, hpv⟩ := mem_tableFrames.mp hmem'
          obtain ⟨hprt, hprk⟩ := mem_eraseP.mp hpr
          rcases List.mem_append.mp hg with hgf | hgf
          · exact hft g hgf (mem_tableFrames.mpr ⟨pr, hprt, hpv⟩)
          · rw [List.mem_singleton] at hgf
            subst hgf
            exact hEval pr hpr hpv
        · intro pr hpr
          have hne : pr.2 ≠ f := hEval pr hpr
          simp only [frameAt]
          rw [getD_set_ne _ _ _ _ _ (fun hh => hne hh.symm), ← hrep2,
            mem_lruErase_of_ne hne]
          exact hpin pr (mem_eraseP.mp hpr).1
        · intro g hg
          simp only [List.length_set] at hg
          rcases hcov g hg with hgf | hgf
          · exact Or.inl (List.mem_append.mpr (Or.inl hgf))
          · obtain ⟨pr, hpr, hpv⟩ := mem_tableFrames.mp hgf
            by_cases hpk : pr.1 = pid
            · refine Or.inl (List.mem_append.mpr (Or.inr ?_))
              rw [List.mem_singleton, ← hpv, hkeyf pr hpr hpk]
            · exact Or.inr (mem_tableFrames.mpr ⟨pr, mem_eraseP.mpr ⟨hpr, hpk⟩, hpv⟩)

theorem fullInv_new {s : BPState}
    {out : Option (Int × Nat) × BPState × List DiskEvent}
    (hw : fullInv s) (hf : NewPage s = some out) : fullInv out.2.1 := by
  unfold NewPage at hf
  cases hfl : s.freeList with
  | cons f rest =>
    simp only [hfl] at hf
    by_cases hgd : (frameAt s f).pinCount = 0 ∧ (frameAt s f).pageId = -1 ∧
        (frameAt s f).isDirty = false
    case neg => rw [if_neg hgd] at hf; exact Option.noConfusion hf
    rw [if_pos hgd] at hf
    exact finishNew_inv (free_acquire hw hfl) hf
  | nil =>
    simp only [hfl] at hf
    rw [← hfl] at hf
    cases hvic : lruVictim s.replacer with
    | none =>
      simp only [hvic, Option.some.injEq] at hf
      subst hf
      exact hw
    | some pr =>
      obtain ⟨f, rep⟩ := pr
      simp only [hvic] at hf
      by_cases hp0 : (frameAt s f).pinCount = 0
      case neg => rw [if_neg hp0] at hf; exact Option.noConfusion hf
      rw [if_pos hp0] at hf
      have hfrep : f ∈ s.replacer := by
        rw [lruVictim_eq hvic]; simp
      obtain ⟨pr0, hpr0, hpv0⟩ := mem_tableFrames.mp (hw.2.2.2.2.2.2.1 f hfrep)
      have hflt : f < s.pages.length := by
        have := (hw.2.2.1 pr0 hpr0).1
        rwa [hpv0] at this
      by_cases hd : (frameAt s f).isDirty
      · rw [if_pos hd] at hf
        by_cases hlg : s.enableLogging = true ∧
            (frameAt s f).lsn > s.logState.persistentLsn
        · rw [if_pos hlg] at hf
          exact finishNew_inv
            (victim_orphan (s.pages.set f { frameAt s f with isDirty := false })
              (forceFlushL s.logState) hw hvic (by simp)
              (fun g hgne => getD_set_ne _ _ _ _ _ (fun hh => hgne hh.symm))
              (by rw [getD_set_self _ _ _ _ hflt])) hf
        · rw [if_neg hlg] at hf
          exact finishNew_inv
            (victim_orphan (s.pages.set f { frameAt s f with isDirty := false })
              s.logState hw hvic (by simp)
              (fun g hgne => getD_set_ne _ _ _ _ _ (fun hh => hgne hh.symm))
              (by rw [getD_set_self _ _ _ _ hflt])) hf
      · rw [if_neg hd] at hf
        exact finishNew_inv
          (victim_orphan s.pages s.logState hw hvic rfl (fun g _ => rfl) rfl) hf

theorem fullInv_stepOp {s s' : BPState} {op : BPOp}
    (hw : fullInv s) (h : stepOp s op = some s') : fullInv s' := by
  cases op with
  | fetch pid =>
    simp only [stepOp] at h
    cases hf : FetchPage s pid with
    | none => rw [hf] at h; exact Option.noConfusion h
    | some out =>
      rw [hf] at h
      simp only [Option.map_some', Option.some.injEq] at h
      subst h
      exact fullInv_fetch hw hf
  | unpin pid d =>
    simp only [stepOp] at h
    cases hf : UnpinPage s pid d with
    | none => rw [hf] at h; exact Option.noConfusion h
    | some out =>
      rw [hf] at h
      simp only [Option.map_some', Option.some.injEq] at h
      subst h
      exact fullInv_unpin hw hf
  | flush pid =>
    simp only [stepOp] at h
    cases hf : FlushPage s pid with
    | none => rw [hf] at h; exact Option.noConfusion h
    | some out =>
      rw [hf] at h
      simp only [Option.map_some', Option.some.injEq] at h
      subst h
      exact fullInv_flush hw hf
  | newp =>
    simp only [stepOp] at h
    cases hf : NewPage s with
    | none => rw [hf] at h; exact Option.noConfusion h
    | some out =>
      rw [hf] at h
      simp only [Option.map_some', Option.some.injEq] at h
      subst h
      exact fullInv_new hw hf
  | deleteP pid =>
    simp only [stepOp] at h
    cases hf : DeletePage s pid with
    | none => rw [hf] at h; exact Option.noConfusion h
    | some out =>
      rw [hf] at h
      simp only [Option.map_some', Option.some.injEq] at h
      subst h
      exact fullInv_delete hw hf

theorem runOps_fullInv {ops : List BPOp} : ∀ {s s' : BPState},
    fullInv s → runOps s ops = some s' → fullInv s' := by
  induction ops with
  | nil =>
    intro s s' hw h
    unfold runOps at h
    simp only [Option.some.injEq] at h
    subst h
    exact hw
  | cons op rest ih =>
    intro s s' hw h
    unfold runOps at h
    cases hst : stepOp s op with
    | none =>
      simp only [hst] at h
      exact Option.noConfusion h
    | some s1 =>
      simp only [hst] at h
      exact ih (fullInv_stepOp hw hst) h

theorem fullInv_init (n : Nat) (el : Bool) (ls : LogState) :
    fullInv (initState n el ls) := by
  refine ⟨List.nodup_nil, List.nodup_nil, ?_, List.nodup_range n, ?_,
    List.nodup_nil, ?_, ?_, ?_, ?_, by dsimp only [initState]; omega⟩
  · intro pr hpr
    exact absurd hpr (List.not_mem_nil pr)
  · intro f hf
    rw [show (initState n el ls).freeList = List.range n from rfl,
      List.mem_range] at hf
    refine ⟨?_, ?_, ?_, ?_⟩
    · simpa [initState] using hf
    · simp [frameAt, initState, List.getD_eq_getElem?_getD, List.getElem?_replicate, hf]
    · simp [frameAt, initState, List.getD_eq_getElem?_getD, List.getElem?_replicate, hf]
    · simp [frameAt, initState, List.getD_eq_getElem?_getD, List.getElem?_replicate, hf]
  · intro g hg
    exact absurd hg (List.not_mem_nil g)
  · intro g _ hmem
    simp [tableFrames, initState] at hmem
  · intro pr hpr
    exact absurd hpr (List.not_mem_nil pr)
  · intro g hg
    rw [show (initState n el ls).pages = List.replicate n ⟨-1, 0, false, 0⟩ from rfl,
      List.length_replicate] at hg
    exact Or.inl (List.mem_range.mpr hg)

theorem fullInv_implies_claimed {s : BPState} (hw : fullInv s) : claimedInv s := by
  obtain ⟨hk, hv, htab, hfnd, hfree, hrnd, hrt, hft, hpin, hcov, hna⟩ := hw
  intro f hf
  rcases hcov f hf with hmem | hmem
  · obtain ⟨h1, h2, h3, h4⟩ := hfree f hmem
    have hnt := hft f hmem
    have hnr : f ∉ s.replacer := fun hr => hnt (hrt f hr)
    exact ⟨Or.inl ⟨hmem, hnt, h2, h3, h4, hnr⟩,
      fun hc => hnt hc.2, fun hc => hnr hc.2⟩
  · obtain ⟨pr, hpr, hpv⟩ := mem_tableFrames.mp hmem
    have hnf : f ∉ s.freeList := fun hfm => hft f hfm hmem
    have hiff := hpin pr hpr
    rw [hpv] at hiff
    by_cases hp0 : (frameAt s f).pinCount = 0
    · exact ⟨Or.inr (Or.inr ⟨hmem, hnf, hp0, hiff.mp hp0⟩),
        fun hc => hnf hc.1, fun hc => by omega⟩
    · have hnr : f ∉ s.replacer := fun hr => hp0 (hiff.mpr hr)
      exact ⟨Or.inr (Or.inl ⟨hmem, hnf, by omega, hnr⟩),
        fun hc => hnf hc.1, fun hc => hnr hc.2⟩

/-- C5: across every sequence of FetchPage, NewPage, UnpinPage, FlushPage
and DeletePage operations on a freshly constructed buffer pool, every frame
is in exactly one of the three states — free (with invalid page id, zero pin
count, clean), in the page table pinned, or in the page table unpinned and
tracked by the replacer — and never simultaneously free and mapped, nor
simultaneously pinned and in the replacer. -/
theorem C5_frame_three_state (n : Nat) (el : Bool) (ls : LogState)
    (ops : List BPOp) (s' : BPState)
    (h : runOps (initState n el ls) ops = some s') : claimedInv s' :=
  fullInv_implies_claimed (runOps_fullInv (fullInv_init n el ls) h)

/-- Witness for C5 at a concrete input: a one-frame pool after a NewPage. -/
theorem C5_frame_three_state_witness :
    runOps (initState 1 false ⟨0, -1⟩) [BPOp.newp] =
      some ⟨[⟨1, 1, true, 0⟩], [(1, 0)], [], [], 2, ⟨0, -1⟩, false⟩ ∧
    claimedInv ⟨[⟨1, 1, true, 0⟩], [(1, 0)], [], [], 2, ⟨0, -1⟩, false⟩ :=
  ⟨by decide, C5_frame_three_state 1 false ⟨0, -1⟩ [BPOp.newp] _ (by decide)⟩

/-- C1: refuted by the source.  With logging enabled, a dirty victim whose
LSN (5) exceeds the persistent LSN (0) is evicted by `FetchPage`: its bytes
are written to disk (`writePage 1`) with no preceding `forceFlush`, and the
resulting persistent LSN (0) is still below the written page's LSN — the WAL
check in `FetchPage` has an empty body (buffer_pool_manager.cpp:76-78).  The
same eviction performed by `NewPage` does force-flush first, so the flaw is
specific to `FetchPage`. -/
theorem C1_fetch_dirty_victim_no_flush :
    FetchPage ⟨[⟨1, 0, true, 5⟩], [(1, 0)], [0], [], 3, ⟨6, 0⟩, true⟩ 2 =
      some (some 0,
        ⟨[⟨2, 1, false, 5⟩], [(2, 0)], [], [], 3, ⟨6, 0⟩, true⟩,
        [DiskEvent.writePage 1, DiskEvent.readPage 2]) ∧
    DiskEvent.writePage 1 ∈ [DiskEvent.writePage 1, DiskEvent.readPage 2] ∧
    DiskEvent.forceFlush ∉ [DiskEvent.writePage 1, DiskEvent.readPage 2] ∧
    (⟨6, 0⟩ : LogState).persistentLsn < (5 : Int) ∧
    NewPage ⟨[⟨1, 0, true, 5⟩], [(1, 0)], [0], [], 3, ⟨6, 0⟩, true⟩ =
      some (some (3, 0),
        ⟨[⟨3, 1, true, 0⟩], [(3, 0)], [], [], 4, ⟨6, 5⟩, true⟩,
        [DiskEvent.forceFlush, DiskEvent.writePage 1, DiskEvent.allocate 3]) := by
  decide

end BufPool

/-- C7: refuted by the source.  With `LOG_BUFFER_SIZE = 100` and 90 bytes
already in the log buffer, appending a 20-byte record takes the
does-not-fit branch; `AppendLogRecord` notifies the flusher and reacquires
the latch but never waits for the swap, so in the schedule where the
flusher does not run in the window the memcpys cover bytes `[90, 110)` —
past the end of the 100-byte log buffer.  Only the schedule where the
flusher happens to swap in time yields the in-bounds write `[0, 20)`. -/
theorem C7_append_log_record_overflow :
    (LogMgr.AppendLogRecord 100 ⟨90, 7, false⟩ 20 false).2.2 = (90, 110) ∧
    ¬((LogMgr.AppendLogRecord 100 ⟨90, 7, false⟩ 20 false).2.2.2 ≤ 100) ∧
    (LogMgr.AppendLogRecord 100 ⟨90, 7, false⟩ 20 true).2.2 = (0, 20) ∧
    (LogMgr.AppendLogRecord 100 ⟨90, 7, false⟩ 20 true).2.2.2 ≤ 100 := by
  decide

/-- Counterexample to C2 as stated: a NEWPAGE record with lsn 3 is redone
against page 7 whose lsn is already 10 (≥ 3), yet the page is re-initialized
(modification count 0 → 1) — the NEWPAGE case of `LogRecovery::Redo`
(log_recovery.cpp:150-156) performs no LSN comparison at all. -/
theorem C2_counterexample_newpage_redo :
    Recovery.redoRecord ⟨[(7, ⟨10, 0⟩)], [], [], []⟩
      ⟨20, 3, 1, -1, Recovery.LogRecordType.newpage, 7⟩ 0 =
      some ⟨[(7, ⟨10, 1⟩)], [], [(3, 0)],
        [Recovery.RecEvent.fetch 7, Recovery.RecEvent.unpin 7 true]⟩ ∧
    (10 : Int) ≥ 3 := by
  decide

/-- C2 (amended): during Redo, for the five tuple-mutating record types
(INSERT, UPDATE, APPLYDELETE, MARKDELETE, ROLLBACKDELETE) the targeted
page's lsn is compared against the record's lsn and the record is skipped
with the page left unmodified when the page is already at or beyond; the
NEWPAGE case performs no such comparison and re-initializes the page
unconditionally. -/
theorem C2_redo_lsn_check (st : Recovery.RState) (r : Recovery.LogRecord)
    (off : Int) (pg : Recovery.RPage)
    (htype : r.recType = Recovery.LogRecordType.insert ∨
      r.recType = Recovery.LogRecordType.update ∨
      r.recType = Recovery.LogRecordType.applydelete ∨
      r.recType = Recovery.LogRecordType.markdelete ∨
      r.recType = Recovery.LogRecordType.rollbackdelete)
    (hpg : Recovery.lookupPg st.pages r.pageId = some pg) :
    (pg.lsn ≥ r.lsn → ∃ st', Recovery.redoRecord st r off = some st' ∧
      st'.pages = st.pages ∧
      st'.trace = st.trace ++ [Recovery.RecEvent.fetch r.pageId]) ∧
    (pg.lsn < r.lsn → ∃ st', Recovery.redoRecord st r off = some st' ∧
      st'.pages = Recovery.upsert st.pages r.pageId
        { pg with mods := pg.mods + 1 } ∧
      st'.trace = st.trace ++ [Recovery.RecEvent.fetch r.pageId,
        Recovery.RecEvent.unpin r.pageId true]) := by
  constructor
  · intro hge
    refine ⟨{ st with
        lsnMapping := Recovery.upsert st.lsnMapping r.lsn off,
        trace := st.trace ++ [Recovery.RecEvent.fetch r.pageId] }, ?_, rfl, rfl⟩
    rcases htype with ht | ht | ht | ht | ht <;>
      · simp only [Recovery.redoRecord, ht, hpg]
        rw [if_pos hge]
  · intro hlt
    refine ⟨{ st with
        lsnMapping := Recovery.upsert st.lsnMapping r.lsn off,
        pages := Recovery.upsert st.pages r.pageId { pg with mods := pg.mods + 1 },
        trace := st.trace ++ [Recovery.RecEvent.fetch r.pageId,
          Recovery.RecEvent.unpin r.pageId true] }, ?_, rfl, rfl⟩
    rcases htype with ht | ht | ht | ht | ht <;>
      · simp only [Recovery.redoRecord, ht, hpg]
        rw [if_neg (by omega)]

/-- Witness for C2's amended theorem: an INSERT record with lsn 5 against
page 7 at lsn 10 (skip branch applies, apply branch is vacuous). -/
theorem C2_redo_lsn_check_witness :
    ((10 : Int) ≥ 5 → ∃ st' : Recovery.RState,
      Recovery.redoRecord ⟨[(7, ⟨10, 0⟩)], [], [], []⟩
        ⟨20, 5, 1, -1, Recovery.LogRecordType.insert, 7⟩ 0 = some st' ∧
      st'.pages = [(7, ⟨10, 0⟩)] ∧
      st'.trace = [] ++ [Recovery.RecEvent.fetch 7]) ∧
    ((10 : Int) < 5 → ∃ st' : Recovery.RState,
      Recovery.redoRecord ⟨[(7, ⟨10, 0⟩)], [], [], []⟩
        ⟨20, 5, 1, -1, Recovery.LogRecordType.insert, 7⟩ 0 = some st' ∧
      st'.pages = Recovery.upsert [(7, ⟨10, 0⟩)] 7 ⟨10, 1⟩ ∧
      st'.trace = [] ++ [Recovery.RecEvent.fetch 7,
        Recovery.RecEvent.unpin 7 true]) :=
  C2_redo_lsn_check ⟨[(7, ⟨10, 0⟩)], [], [], []⟩
    ⟨20, 5, 1, -1, Recovery.LogRecordType.insert, 7⟩ 0 ⟨10, 0⟩
    (Or.inl rfl) (by decide)

/-- C9: refuted by the source.  On the Redo skip path an INSERT record with
lsn 5 meets page 7 whose lsn is already 10: the page is fetched (pinning
it) and the `break` at log_recovery.cpp:94-96 leaves the case without any
UnpinPage, so the trace holds one fetch and zero unpins for the page —
FetchPage is not paired with an UnpinPage. -/
theorem C9_redo_skip_leaks_pin :
    Recovery.redoRecord ⟨[(7, ⟨10, 0⟩)], [], [], []⟩
      ⟨20, 5, 1, -1, Recovery.LogRecordType.insert, 7⟩ 0 =
      some ⟨[(7, ⟨10, 0⟩)], [], [(5, 0)], [Recovery.RecEvent.fetch 7]⟩ ∧
    Recovery.countFetch [Recovery.RecEvent.fetch 7] 7 = 1 ∧
    Recovery.countUnpin [Recovery.RecEvent.fetch 7] 7 = 0 := by
  decide

namespace BTree

theorem moveAllTo_props {st st' : BTState} {nodeId recId : Int}
    (h : moveAllTo st nodeId recId = some st') :
    st'.deletedPageSet = st.deletedPageSet ∧
    ∃ tl, st'.trace = st.trace ++ tl := by
  unfold moveAllTo at h
  cases hn : getNode st nodeId with
  | none =>
    cases hr : getNode st recId <;> simp only [hn, hr] at h <;>
      exact Option.noConfusion h
  | some nd =>
    cases hr : getNode st recId with
    | none => simp only [hn, hr] at h; exact Option.noConfusion h
    | some rc =>
      simp only [hn, hr] at h
      by_cases hl : nd.isLeaf = true
      · rw [if_pos hl] at h
        simp only [Option.some.injEq] at h
        subst h
        exact ⟨rfl, ⟨[], by simp [setNode]⟩⟩
      · rw [if_neg hl] at h
        by_cases hc : (getNode st nd.parentPageId).isSome = true ∧
            nd.children.all (fun c => (getNode st c).isSome) = true
        · rw [if_pos hc] at h
          simp only [Option.some.injEq] at h
          subst h
          exact ⟨rfl, ⟨_, by simp [emit]; rfl⟩⟩
        · rw [if_neg hc] at h
          exact Option.noConfusion h

theorem redistribute_props {st st' : BTState} {nbrId nodeId : Int}
    (h : Redistribute st nbrId nodeId = some st') :
    st'.deletedPageSet = st.deletedPageSet ∧
    ∃ tl, st'.trace = st.trace ++ tl := by
  unfold Redistribute at h
  cases hn : getNode st nbrId with
  | none =>
    cases hm : getNode st nodeId <;> simp only [hn, hm] at h <;>
      exact Option.noConfusion h
  | some nbr =>
    cases hm : getNode st nodeId with
    | none => simp only [hn, hm] at h; exact Option.noConfusion h
    | some nd =>
      simp only [hn, hm, Option.some.injEq] at h
      subst h
      exact ⟨rfl, ⟨_, by simp [emit, setNode]; rfl⟩⟩

theorem adjustRoot_props {st st' : BTState} {rootId : Int} {b : Bool}
    (h : AdjustRoot st rootId = some (b, st')) :
    st'.deletedPageSet = st.deletedPageSet ∧
    ∃ tl, st'.trace = st.trace ++ tl := by
  unfold AdjustRoot at h
  cases hn : getNode st rootId with
  | none => simp only [hn] at h; exact Option.noConfusion h
  | some root =>
    simp only [hn] at h
    by_cases hl : root.isLeaf = true
    · rw [if_pos hl] at h
      by_cases hz : root.size = 0
      · rw [if_pos hz] at h
        simp only [Option.some.injEq, Prod.mk.injEq] at h
        obtain ⟨hb, hst⟩ := h
        subst hst
        exact ⟨rfl, ⟨_, by simp [dropNode, emit]; rfl⟩⟩
      · rw [if_neg hz] at h
        simp only [Option.some.injEq, Prod.mk.injEq] at h
        obtain ⟨hb, hst⟩ := h
        subst hst
        exact ⟨rfl, ⟨[], by simp⟩⟩
    · rw [if_neg hl] at h
      by_cases ho : root.size = 1
      · rw [if_pos ho] at h
        cases hva : valueAt root 0 with
        | none => simp only [hva] at h; exact Option.noConfusion h
        | some newRootId =>
          simp only [hva] at h
          cases hnr : getNode st newRootId with
          | none => simp only [hnr] at h; exact Option.noConfusion h
          | some nr =>
            simp only [hnr, Option.some.injEq, Prod.mk.injEq] at h
            obtain ⟨hb, hst⟩ := h
            subst hst
            exact ⟨rfl, ⟨_, by simp [dropNode, emit, setNode]; rfl⟩⟩
      · rw [if_neg ho] at h
        simp only [Option.some.injEq, Prod.mk.injEq] at h
        obtain ⟨hb, hst⟩ := h
        subst hst
        exact ⟨rfl, ⟨[], by simp⟩⟩

theorem corAux_props (fuel : Nat) :
    (∀ st nodeId b st', corAux fuel (Sum.inl (st, nodeId)) = some (b, st') →
      st'.deletedPageSet = st.deletedPageSet ∧
      ∃ tl, st'.trace = st.trace ++ tl) ∧
    (∀ st nbrId nodeId parentId index b st',
      corAux fuel (Sum.inr (st, nbrId, nodeId, parentId, index)) =
        some (b, st') →
      st'.deletedPageSet = st.deletedPageSet ∧
      BTEvent.deletePage nodeId ∈ st'.trace ∧
      ∃ tl, st'.trace = st.trace ++ tl) := by
  induction fuel with
  | zero =>
    constructor
    · intro st nodeId b st' h
      simp only [corAux] at h
      exact Option.noConfusion h
    · intro st nbrId nodeId parentId index b st' h
      simp only [corAux] at h
      exact Option.noConfusion h
  | succ f ih =>
    obtain ⟨ihL, ihR⟩ := ih
    constructor
    · intro st nodeId b st' h
      simp only [corAux] at h
      cases hn : getNode st nodeId with
      | none => simp only [hn] at h; exact Option.noConfusion h
      | some node =>
        simp only [hn] at h
        by_cases hroot : node.parentPageId = -1
        · rw [if_pos hroot] at h
          exact adjustRoot_props h
        · rw [if_neg hroot] at h
          cases hp : getNode st node.parentPageId with
          | none => simp only [hp] at h; exact Option.noConfusion h
          | some parent =>
            simp only [hp] at h
            by_cases hidx : valueIndex parent nodeId = 0
            · rw [if_pos hidx] at h
              cases hva : valueAt parent (valueIndex parent nodeId + 1) with
              | none => simp only [hva] at h; exact Option.noConfusion h
              | some nbrId =>
                simp only [hva] at h
                cases hnb : getNode st nbrId with
                | none => simp only [hnb] at h; exact Option.noConfusion h
                | some nbr =>
                  simp only [hnb] at h
                  by_cases hfit : node.size + nbr.size ≤ node.maxSize
                  · rw [if_pos hfit] at h
                    cases hrec : corAux f (Sum.inr
                        (emit (emit st [BTEvent.fetchPage parent.pageId])
                          [BTEvent.fetchPage nbrId],
                         nodeId, nbrId, parent.pageId,
                         valueIndex parent nodeId + 1)) with
                    | none => simp only [hrec] at h; exact Option.noConfusion h
                    | some pr =>
                      obtain ⟨b3, st3⟩ := pr
                      simp only [hrec, Option.some.injEq, Prod.mk.injEq] at h
                      obtain ⟨hb, hst⟩ := h
                      subst hst
                      obtain ⟨hdps, hmem, tl2, htl2⟩ := ihR _ _ _ _ _ _ _ hrec
                      refine ⟨hdps, ?_⟩
                      rw [htl2]
                      simp only [emit]
                      exact ⟨_, by simp only [List.append_assoc]; rfl⟩
                  · rw [if_neg hfit] at h
                    cases hrd : Redistribute
                        (emit (emit st [BTEvent.fetchPage parent.pageId])
                          [BTEvent.fetchPage nbrId]) nbrId nodeId with
                    | none => simp only [hrd] at h; exact Option.noConfusion h
                    | some st3 =>
                      simp only [hrd, Option.some.injEq, Prod.mk.injEq] at h
                      obtain ⟨hb, hst⟩ := h
                      subst hst
                      obtain ⟨hdps, tl2, htl2⟩ := redistribute_props hrd
                      refine ⟨hdps, ?_⟩
                      have h3 : (emit st3 [BTEvent.unpinPage parent.pageId true]).trace
                          = st3.trace ++ [BTEvent.unpinPage parent.pageId true] := rfl
                      rw [h3, htl2]
                      simp only [emit]
                      exact ⟨_, by simp only [List.append_assoc]; rfl⟩
            · rw [if_neg hidx] at h
              cases hva : valueAt parent (valueIndex parent nodeId - 1) with
              | none => simp only [hva] at h; exact Option.noConfusion h
              | some nbrId =>
                simp only [hva] at h
                cases hnb : getNode st nbrId with
                | none => simp only [hnb] at h; exact Option.noConfusion h
                | some nbr =>
                  simp only [hnb] at h
                  by_cases hfit : node.size + nbr.size ≤ node.maxSize
                  · rw [if_pos hfit] at h
                    cases hrec : corAux f (Sum.inr
                        (emit (emit st [BTEvent.fetchPage parent.pageId])
                          [BTEvent.fetchPage nbrId],
                         nbrId, nodeId, parent.pageId,
                         valueIndex parent nodeId)) with
                    | none => simp only [hrec] at h; exact Option.noConfusion h
                    | some pr =>
                      obtain ⟨b3, st3⟩ := pr
                      simp only [hrec, Option.some.injEq, Prod.mk.injEq] at h
                      obtain ⟨hb, hst⟩ := h
                      subst hst
                      obtain ⟨hdps, hmem, tl2, htl2⟩ := ihR _ _ _ _ _ _ _ hrec
                      refine ⟨hdps, ?_⟩
                      rw [htl2]
                      simp only [emit]
                      exact ⟨_, by simp only [List.append_assoc]; rfl⟩
                  · rw [if_neg hfit] at h
                    cases hrd : Redistribute
                        (emit (emit st [BTEvent.fetchPage parent.pageId])
                          [BTEvent.fetchPage nbrId]) nbrId nodeId with
                    | none => simp only [hrd] at h; exact Option.noConfusion h
                    | some st3 =>
                      simp only [hrd, Option.some.injEq, Prod.mk.injEq] at h
                      obtain ⟨hb, hst⟩ := h
                      subst hst
                      obtain ⟨hdps, tl2, htl2⟩ := redistribute_props hrd
                      refine ⟨hdps, ?_⟩
                      have h3 : (emit st3 [BTEvent.unpinPage parent.pageId true]).trace
                          = st3.trace ++ [BTEvent.unpinPage parent.pageId true] := rfl
                      rw [h3, htl2]
                      simp only [emit]
                      exact ⟨_, by simp only [List.append_assoc]; rfl⟩
    · intro st nbrId nodeId parentId index b st' h
      simp only [corAux] at h
      cases hmv : moveAllTo st nodeId nbrId with
      | none => simp only [hmv] at h; exact Option.noConfusion h
      | some st1 =>
        simp only [hmv] at h
        cases hp : getNode st1 parentId with
        | none => simp only [hp] at h; exact Option.noConfusion h
        | some parent =>
          simp only [hp] at h
          obtain ⟨hdps1, tl1, htl1⟩ := moveAllTo_props hmv
          by_cases hu : parent.size - 1 < parent.minSize
          · rw [if_pos hu] at h
            obtain ⟨hdps2, tl2, htl2⟩ := ihL _ _ _ _ h
            refine ⟨hdps2.trans hdps1, ?_, ?_⟩
            · rw [htl2]
              refine List.mem_append.mpr (Or.inl ?_)
              simp [dropNode, emit, setNode]
            · rw [htl2]
              simp only [dropNode, emit, setNode]
              rw [htl1]
              exact ⟨_, by simp only [List.append_assoc]; rfl⟩
          · rw [if_neg hu] at h
            simp only [Option.some.injEq, Prod.mk.injEq] at h
            obtain ⟨hb, hst⟩ := h
            subst hst
            refine ⟨hdps1, ?_, ?_⟩
            · simp [dropNode, emit, setNode]
            · refine ⟨tl1 ++ ([BTEvent.unpinPage nodeId true,
                BTEvent.unpinPage nbrId true, BTEvent.deletePage nodeId] ++
                [BTEvent.unpinPage parentId true]), ?_⟩
              show (st1.trace ++ [BTEvent.unpinPage nodeId true,
                BTEvent.unpinPage nbrId true, BTEvent.deletePage nodeId]) ++
                [BTEvent.unpinPage parentId true] = _
              rw [htl1]
              simp only [List.append_assoc]

/-- Counterexample to C6 as stated: a leaf coalesce (parent page 1 with
children 2 and 3, both leaves at minimum occupancy) merges page 3 into page
2; the trace shows `DeletePage(3)` issued in the middle of the merge —
before the parent is even unpinned — while the transaction's
`deleted_page_set` stays empty: no deferred-deallocation scheme exists. -/
theorem C6_counterexample_coalesce :
    CoalesceOrRedistribute 3
      ⟨[⟨1, -1, false, 4, 1, 2, [2, 3]⟩, ⟨2, 1, true, 2, 1, 1, []⟩,
        ⟨3, 1, true, 2, 1, 1, []⟩], 1, [], []⟩ 2 =
      some (false,
        ⟨[⟨1, -1, false, 4, 1, 1, [2]⟩, ⟨2, 1, true, 2, 1, 2, []⟩], 1,
         [BTEvent.fetchPage 1, BTEvent.fetchPage 3, BTEvent.unpinPage 3 true,
          BTEvent.unpinPage 2 true, BTEvent.deletePage 3,
          BTEvent.unpinPage 1 true], []⟩) ∧
    BTEvent.deletePage 3 ∈
      [BTEvent.fetchPage 1, BTEvent.fetchPage 3, BTEvent.unpinPage 3 true,
       BTEvent.unpinPage 2 true, BTEvent.deletePage 3] := by
  decide

/-- C6 (amended): whenever `Coalesce` merges `node` into its neighbor, the
buffer pool's `DeletePage(node)` is invoked during the merge itself (the
event is in the resulting trace), and the transaction's `deleted_page_set`
is left unchanged — the deallocation is not deferred to after latch
release, and nothing is ever appended to `deleted_page_set`. -/
theorem C6_coalesce_deletes_during_merge (fuel : Nat) (st : BTState)
    (neighborId nodeId parentId : Int) (index : Nat) (b : Bool)
    (st' : BTState)
    (h : Coalesce fuel st neighborId nodeId parentId index = some (b, st')) :
    BTEvent.deletePage nodeId ∈ st'.trace ∧
    st'.deletedPageSet = st.deletedPageSet := by
  have hx := (corAux_props (fuel + 1)).2 st neighborId nodeId parentId index
    b st' h
  exact ⟨hx.2.1, hx.1⟩

/-- Witness for C6's amended theorem on a concrete merge of leaf 3 into
leaf 2 under parent 1. -/
theorem C6_coalesce_deletes_during_merge_witness :
    Coalesce 1
      ⟨[⟨1, -1, false, 4, 1, 2, [2, 3]⟩, ⟨2, 1, true, 2, 1, 1, []⟩,
        ⟨3, 1, true, 2, 1, 1, []⟩], 1, [], []⟩ 2 3 1 1 =
      some (false,
        ⟨[⟨1, -1, false, 4, 1, 1, [2]⟩, ⟨2, 1, true, 2, 1, 2, []⟩], 1,
         [BTEvent.unpinPage 3 true, BTEvent.unpinPage 2 true,
          BTEvent.deletePage 3, BTEvent.unpinPage 1 true], []⟩) ∧
    (BTEvent.deletePage 3 ∈
        ([BTEvent.unpinPage 3 true, BTEvent.unpinPage 2 true,
          BTEvent.deletePage 3, BTEvent.unpinPage 1 true] : List BTEvent) ∧
      ([] : List Int) = []) :=
  ⟨by decide,
   C6_coalesce_deletes_during_merge 1
     ⟨[⟨1, -1, false, 4, 1, 2, [2, 3]⟩, ⟨2, 1, true, 2, 1, 1, []⟩,
       ⟨3, 1, true, 2, 1, 1, []⟩], 1, [], []⟩ 2 3 1 1 false
     ⟨[⟨1, -1, false, 4, 1, 1, [2]⟩, ⟨2, 1, true, 2, 1, 2, []⟩], 1,
      [BTEvent.unpinPage 3 true, BTEvent.unpinPage 2 true,
       BTEvent.deletePage 3, BTEvent.unpinPage 1 true], []⟩
     (by decide)⟩

end BTree

/-- Witness for C4 at concrete inputs: rid 0 is held exclusively by txn 1;
the younger txn 5 aborts on LockShared; the older txn 0 enqueues and waits
on LockExclusive; a request at the queue head resumes with `true`. -/
theorem C4_wait_die_witness :
    LockMgr.LockShared
      ⟨false, [(0, ⟨[⟨1, LockMgr.LockMode.exclusive, true⟩], 1⟩)]⟩
      ⟨5, LockMgr.TransactionState.growing, [], []⟩ 0
      = (LockMgr.LockResult.ret false,
         ⟨false, [(0, ⟨[⟨1, LockMgr.LockMode.exclusive, true⟩], 1⟩)]⟩,
         ⟨5, LockMgr.TransactionState.aborted, [], []⟩) ∧
    LockMgr.LockExclusive
      ⟨false, [(0, ⟨[⟨1, LockMgr.LockMode.exclusive, true⟩], 1⟩)]⟩
      ⟨0, LockMgr.TransactionState.growing, [], []⟩ 0
      = (LockMgr.LockResult.wait,
         ⟨false, [(0, ⟨[⟨1, LockMgr.LockMode.exclusive, true⟩,
                        ⟨0, LockMgr.LockMode.exclusive, false⟩], 1⟩)]⟩,
         ⟨0, LockMgr.TransactionState.growing, [], []⟩) ∧
    LockMgr.LockSharedResume
      ⟨false, [(0, ⟨[⟨0, LockMgr.LockMode.shared, false⟩], 1⟩)]⟩
      ⟨0, LockMgr.TransactionState.growing, [], []⟩ 0
      = some (true,
          ⟨false, [(0, ⟨[⟨0, LockMgr.LockMode.shared, true⟩], 1⟩)]⟩,
          ⟨0, LockMgr.TransactionState.growing, [0], []⟩) := by
  refine ⟨?_, ?_, ?_⟩
  · exact ((C4_wait_die
      ⟨false, [(0, ⟨[⟨1, LockMgr.LockMode.exclusive, true⟩], 1⟩)]⟩
      ⟨5, LockMgr.TransactionState.growing, [], []⟩ 0
      ⟨[⟨1, LockMgr.LockMode.exclusive, true⟩], 1⟩ rfl (by decide)).1
      (by decide)).1 (by decide)
  · exact ((C4_wait_die
      ⟨false, [(0, ⟨[⟨1, LockMgr.LockMode.exclusive, true⟩], 1⟩)]⟩
      ⟨0, LockMgr.TransactionState.growing, [], []⟩ 0
      ⟨[⟨1, LockMgr.LockMode.exclusive, true⟩], 1⟩ rfl (by decide)).2.1.2
      (by decide))
  · exact (((C4_wait_die
      ⟨false, [(0, ⟨[⟨0, LockMgr.LockMode.shared, false⟩], 1⟩)]⟩
      ⟨0, LockMgr.TransactionState.growing, [], []⟩ 0
      ⟨[⟨0, LockMgr.LockMode.shared, false⟩], 1⟩ rfl (by decide)).2.2
      ⟨false, [(0, ⟨[⟨0, LockMgr.LockMode.shared, false⟩], 1⟩)]⟩
      ⟨[⟨0, LockMgr.LockMode.shared, false⟩], 1⟩ (by decide) (by decide)).1)

end CmuDb
